import Mathlib

/-!
Verification of the positional binary tree container
(`positional_binary_tree.py`).

The Python class keeps a linked heap of `_Node` objects (fields `_element`,
`_parent`, `_left`, `_right`), hands out `Position` handles carrying the
container identity and the node reference, and validates a handle by checking
the container identity and a self-parent sentinel that marks deleted nodes.

The shallow embedding below renders the node heap as an arena
(`Arena α := List (Node α)`) whose indices stand for Python object identity,
a tree object as a record carrying its identity, its root reference and its
size counter (an `Int`, like a Python int, so that the `self._size -= 1`
in `delete` is modelled without truncation), and a position as the pair of
container identity and node index.  Every mutating method returns its result
together with the updated arena and tree objects; a raised exception is an
`Except.error` value paired with the state at the raise point (every raise in
the source precedes the first mutation, so that state is the input state).
-/

namespace PBT

/-- The error kinds of the spec's taxonomy.  `invalidPosition` stands for the
exceptions raised by `_validate` (foreign container, or deleted node). -/
inductive Err where
  | invalidPosition
  | rootExists
  | childExists
  | twoChildren
  | notLeaf
  | typeMismatch
deriving DecidableEq

/-- One `_Node` object: element payload plus parent/left/right references
(arena indices; `none` is Python's `None`). -/
structure Node (α : Type) where
  element : α
  parent : Option Nat
  left : Option Nat
  right : Option Nat
deriving DecidableEq

/-- The heap of node objects; an index is a node's identity. -/
abbrev Arena (α : Type) := List (Node α)

/-- One `PositionalBinaryTree` object: its identity (for the
`p._container is self` check), root reference and size counter. -/
structure Tree where
  id : Nat
  root : Option Nat
  size : Int
deriving DecidableEq

/-- A `Position` handle: the issuing container's identity and the node. -/
structure Pos where
  container : Nat
  node : Nat
deriving DecidableEq

/-- Write to the node object at index `i` (no-op on a dangling index, which
never arises for references held by a live structure). -/
def updNode (a : Arena α) (i : Nat) (f : Node α → Node α) : Arena α :=
  match a[i]? with
  | some n => a.set i (f n)
  | none => a

/-- `_validate`: the handle must carry this container's identity, and the
node must not be marked with the self-parent deletion sentinel.  Returns the
node (with its index, standing for the returned reference). -/
def validate (a : Arena α) (t : Tree) (p : Pos) : Except Err (Nat × Node α) :=
  if p.container = t.id then
    match a[p.node]? with
    | some n =>
      if n.parent = some p.node then .error .invalidPosition
      else .ok (p.node, n)
    | none => .error .invalidPosition
  else .error .invalidPosition

/-- `_make_position`: wrap a node reference as a `Position` of this
container, `None` for a missing node. -/
def make_position (t : Tree) (o : Option Nat) : Option Pos :=
  o.map (fun i => ⟨t.id, i⟩)

/-- `root()`. -/
def root (t : Tree) : Option Pos :=
  make_position t t.root

/-- `Position.element()`: reads the node's element with no validation. -/
def element (a : Arena α) (p : Pos) : Option α :=
  (a[p.node]?).map Node.element

/-- `parent(p)`. -/
def parent (a : Arena α) (t : Tree) (p : Pos) : Except Err (Option Pos) :=
  (validate a t p).map fun x => make_position t x.2.parent

/-- `left(p)`. -/
def left (a : Arena α) (t : Tree) (p : Pos) : Except Err (Option Pos) :=
  (validate a t p).map fun x => make_position t x.2.left

/-- `right(p)`. -/
def right (a : Arena α) (t : Tree) (p : Pos) : Except Err (Option Pos) :=
  (validate a t p).map fun x => make_position t x.2.right

/-- `num_children(p)`: count the populated child slots. -/
def num_children (a : Arena α) (t : Tree) (p : Pos) : Except Err Nat :=
  (validate a t p).map fun x =>
    (if x.2.left.isSome then 1 else 0) + (if x.2.right.isSome then 1 else 0)

/-- `is_root(p)`: `self.root() == p`.  `Position.__eq__` compares node
identity only (and `None == p` is `False`), so this never raises. -/
def is_root (t : Tree) (p : Pos) : Bool :=
  t.root = some p.node

/-- `is_leaf(p)`: `num_children(p) == 0`. -/
def is_leaf (a : Arena α) (t : Tree) (p : Pos) : Except Err Bool :=
  (num_children a t p).map (· = 0)

/-- `is_empty()`. -/
def is_empty (t : Tree) : Bool :=
  t.size = 0

/-- `add_root(e)`: fails if a root exists; otherwise allocates the first
node, sets the size to 1 and returns its position. -/
def add_root (a : Arena α) (t : Tree) (e : α) : Except Err Pos × Arena α × Tree :=
  match t.root with
  | some _ => (.error .rootExists, a, t)
  | none =>
    (.ok ⟨t.id, a.length⟩, a ++ [⟨e, none, none, none⟩],
     { t with root := some a.length, size := 1 })

/-- `add_left(p, e)`: fails if the left slot is occupied; otherwise allocates
a node parented at `p`'s node and hooks it into the left slot. -/
def add_left (a : Arena α) (t : Tree) (p : Pos) (e : α) :
    Except Err Pos × Arena α × Tree :=
  match validate a t p with
  | .error er => (.error er, a, t)
  | .ok (i, n) =>
    match n.left with
    | some _ => (.error .childExists, a, t)
    | none =>
      (.ok ⟨t.id, a.length⟩,
       (updNode a i fun q => { q with left := some a.length }) ++ [⟨e, some i, none, none⟩],
       { t with size := t.size + 1 })

/-- `add_right(p, e)`: mirror image of `add_left`. -/
def add_right (a : Arena α) (t : Tree) (p : Pos) (e : α) :
    Except Err Pos × Arena α × Tree :=
  match validate a t p with
  | .error er => (.error er, a, t)
  | .ok (i, n) =>
    match n.right with
    | some _ => (.error .childExists, a, t)
    | none =>
      (.ok ⟨t.id, a.length⟩,
       (updNode a i fun q => { q with right := some a.length }) ++ [⟨e, some i, none, none⟩],
       { t with size := t.size + 1 })

/-- `replace(p, e)`: overwrite the element, return the old one. -/
def replace (a : Arena α) (t : Tree) (p : Pos) (e : α) :
    Except Err α × Arena α × Tree :=
  match validate a t p with
  | .error er => (.error er, a, t)
  | .ok (i, n) =>
    (.ok n.element, updNode a i fun q => { q with element := e }, t)

/-- `child = node._left if node._left else node._right` in `delete`
(a `_Node` object is always truthy, so this is a `None` test). -/
def Node.childOf (n : Node α) : Option Nat :=
  match n.left with
  | some l => some l
  | none => n.right

/-- `delete(p)`: refuse a node with two children; otherwise splice the single
child (if any) into the deleted node's place — re-parenting the child, and
redirecting either the tree's root reference or the former parent's child
slot (left if `node is parent._left`, else right) — then decrement the size,
mark the node with the self-parent sentinel and return its element. -/
def delete (a : Arena α) (t : Tree) (p : Pos) : Except Err α × Arena α × Tree :=
  match validate a t p with
  | .error er => (.error er, a, t)
  | .ok (i, n) =>
    if n.left.isSome && n.right.isSome then (.error .twoChildren, a, t)
    else
      let child := n.childOf
      let a1 := match child with
        | some c => updNode a c fun q => { q with parent := n.parent }
        | none => a
      let st2 : Arena α × Tree :=
        if t.root = some i then (a1, { t with root := child })
        else
          match n.parent with
          | some pi =>
            (match a1[pi]? with
             | some pn =>
               if pn.left = some i then
                 updNode a1 pi fun q => { q with left := child }
               else
                 updNode a1 pi fun q => { q with right := child }
             | none => a1, t)
          | none => (a1, t)
      let t3 := { st2.2 with size := st2.2.size - 1 }
      let a3 := updNode st2.1 i fun q => { q with parent := some i }
      (.ok n.element, a3, t3)

/-- `attach(p, t1, t2)`: the subtree arguments arrive as Python values; a
value that is not an instance of the container class is `none`, an instance
is `some` tree object.  After validation and the leaf check, a non-instance
argument raises `TypeMismatch`; otherwise each non-empty source tree's root is
re-parented under `p`'s node, hooked into the left (for `t1`) / right (for
`t2`) slot, and the source tree is emptied.  The size grows by
`len(t1) + len(t2)` counted before the move. -/
def attach (a : Arena α) (t : Tree) (p : Pos) (v1 v2 : Option Tree) :
    Except Err Unit × Arena α × Tree × Option Tree × Option Tree :=
  match validate a t p with
  | .error er => (.error er, a, t, v1, v2)
  | .ok (i, n) =>
    if n.left.isSome || n.right.isSome then (.error .notLeaf, a, t, v1, v2)
    else
      match v1, v2 with
      | some t1, some t2 =>
        let t' := { t with size := t.size + t1.size + t2.size }
        let st1 : Arena α × Tree :=
          if t1.size = 0 then (a, t1)
          else
            match t1.root with
            | some r1 =>
              (updNode (updNode a r1 fun q => { q with parent := some i }) i
                 fun q => { q with left := some r1 },
               { t1 with root := none, size := 0 })
            | none => (a, t1)
        let st2 : Arena α × Tree :=
          if t2.size = 0 then (st1.1, t2)
          else
            match t2.root with
            | some r2 =>
              (updNode (updNode st1.1 r2 fun q => { q with parent := some i }) i
                 fun q => { q with right := some r2 },
               { t2 with root := none, size := 0 })
            | none => (st1.1, t2)
        (.ok (), st2.1, t', some st1.2, some st2.2)
      | _, _ => (.error .typeMismatch, a, t, v1, v2)

/-- `_subtree_preorder`, fuel-bounded: yield the node's element, then the
left subtree's elements, then the right subtree's.  `none` stands for a run
that does not produce a finite list (dangling reference, deleted node hit by
the validation inside `left`/`right`, or exhausted fuel). -/
def subtree_preorder (a : Arena α) : Nat → Nat → Option (List α)
  | 0, _ => none
  | fuel+1, i =>
    match a[i]? with
    | none => none
    | some n =>
      if n.parent = some i then none
      else
        match (match n.left with
               | none => some []
               | some l => subtree_preorder a fuel l),
              (match n.right with
               | none => some []
               | some r => subtree_preorder a fuel r) with
        | some ls, some rs => some (n.element :: (ls ++ rs))
        | _, _ => none

/-- `preorder()`: empty sequence on an empty tree (the `is_empty` size test),
else the subtree walk from the root. -/
def preorder (a : Arena α) (t : Tree) (fuel : Nat) : Option (List α) :=
  if t.size = 0 then some []
  else
    match t.root with
    | some r => subtree_preorder a fuel r
    | none => none

/-- `_subtree_inorder`: left subtree's elements, the node's element, right
subtree's elements. -/
def subtree_inorder (a : Arena α) : Nat → Nat → Option (List α)
  | 0, _ => none
  | fuel+1, i =>
    match a[i]? with
    | none => none
    | some n =>
      if n.parent = some i then none
      else
        match (match n.left with
               | none => some []
               | some l => subtree_inorder a fuel l),
              (match n.right with
               | none => some []
               | some r => subtree_inorder a fuel r) with
        | some ls, some rs => some (ls ++ n.element :: rs)
        | _, _ => none

/-- `inorder()`. -/
def inorder (a : Arena α) (t : Tree) (fuel : Nat) : Option (List α) :=
  if t.size = 0 then some []
  else
    match t.root with
    | some r => subtree_inorder a fuel r
    | none => none

/-! ### Abstract binary trees

`BT` is the mathematical binary tree, with the traversal orders written the
way the spec states them: a node's element before the left subtree's elements
before the right subtree's elements (preorder), and left, node, right
(inorder).  `extract` reads the abstract tree out of the arena. -/

/-- Abstract binary tree. -/
inductive BT (α : Type) where
  | leaf : BT α
  | node : BT α → α → BT α → BT α
deriving DecidableEq

/-- Spec-side preorder: the node's element, then the left subtree's
elements, then the right subtree's elements. -/
def BT.pre : BT α → List α
  | .leaf => []
  | .node l e r => e :: (l.pre ++ r.pre)

/-- Spec-side inorder: the left subtree's elements, then the node's element,
then the right subtree's elements. -/
def BT.ino : BT α → List α
  | .leaf => []
  | .node l e r => l.ino ++ e :: r.ino

/-- Number of nodes of an abstract tree. -/
def BT.size : BT α → Nat
  | .leaf => 0
  | .node l _ r => 1 + l.size + r.size

/-- Read the abstract tree hanging from a node reference out of the arena.
`none` on a dangling reference, a deletion-marked node, or exhausted fuel. -/
def extract (a : Arena α) : Nat → Option Nat → Option (BT α)
  | _, none => some .leaf
  | 0, some _ => none
  | fuel+1, some i =>
    match a[i]? with
    | none => none
    | some n =>
      if n.parent = some i then none
      else
        match extract a fuel n.left, extract a fuel n.right with
        | some l, some r => some (.node l n.element r)
        | _, _ => none

/-- The indices of the nodes visited by `extract`, in preorder. -/
def reach (a : Arena α) : Nat → Option Nat → List Nat
  | _, none => []
  | 0, some _ => []
  | fuel+1, some i =>
    match a[i]? with
    | none => []
    | some n =>
      if n.parent = some i then []
      else i :: (reach a fuel n.left ++ reach a fuel n.right)

/-- Back-link consistency of the graph hanging from a reference: every
visited node's parent field points at the node it was reached from (`po` for
the entry reference). -/
def conspar (a : Arena α) : Nat → Option Nat → Option Nat → Bool
  | _, none, _ => true
  | 0, some _, _ => true
  | fuel+1, some i, po =>
    match a[i]? with
    | none => true
    | some n =>
      decide (n.parent = po) && conspar a fuel n.left (some i) &&
        conspar a fuel n.right (some i)

/-- The documented representation invariant of one tree object: the arena
graph below the root is a well-founded tree (`extract` succeeds), its
back-links are consistent, no node is shared (`Nodup`), the size counter
equals the node count, and the size is zero exactly when the root reference
is null. -/
def Invf (a : Arena α) (t : Tree) (fuel : Nat) (b : BT α) : Prop :=
  extract a fuel t.root = some b ∧
  conspar a fuel t.root none = true ∧
  (reach a fuel t.root).Nodup ∧
  t.size = (b.size : Int) ∧
  (t.size = 0 ↔ t.root = none)

/-- The invariant piece claimed by the spec: `size == 0` iff the root is
null, and the size counter equals the number of nodes reachable from the
root. -/
def SizeInv (a : Arena α) (t : Tree) : Prop :=
  (t.size = 0 ↔ t.root = none) ∧
  ∃ fuel b, extract a fuel t.root = some b ∧ t.size = (b.size : Int)

/-- The splice step of a successful `delete` before the sentinel marking:
re-parent the single child (if any), then redirect either the tree's root
reference (handled by the caller) or the former parent's child slot.  This
names the intermediate arena of `delete`'s success path. -/
def deleteRelink (a : Arena α) (t : Tree) (i : Nat) (n : Node α) : Arena α :=
  let a1 := match n.childOf with
    | some c => updNode a c fun q => { q with parent := n.parent }
    | none => a
  if t.root = some i then a1
  else
    match n.parent with
    | some pi =>
      match a1[pi]? with
      | some pn =>
        if pn.left = some i then updNode a1 pi fun q => { q with left := n.childOf }
        else updNode a1 pi fun q => { q with right := n.childOf }
      | none => a1
    | none => a1

/-- The heap after the success path of `attach` at leaf index `i`: each
non-empty source tree's root is re-parented to `i` and hooked into the
left (`t1`) / right (`t2`) slot.  This names the result arena of `attach`. -/
def attachArena (a : Arena α) (i : Nat) (t1 t2 : Tree) : Arena α :=
  let a1 := if t1.size = 0 then a
    else
      match t1.root with
      | some r1 =>
        updNode (updNode a r1 fun q => { q with parent := some i }) i
          fun q => { q with left := some r1 }
      | none => a
  if t2.size = 0 then a1
  else
    match t2.root with
    | some r2 =>
      updNode (updNode a1 r2 fun q => { q with parent := some i }) i
        fun q => { q with right := some r2 }
    | none => a1

/-- A heap change that `extract` cannot observe at index `j`: either the
node object is untouched, or only its parent field changed, to something
other than the self-parent sentinel. -/
def benign (a a' : Arena α) (j : Nat) : Prop :=
  a'[j]? = a[j]? ∨
  ∃ n pa, a[j]? = some n ∧ a'[j]? = some { n with parent := pa } ∧ pa ≠ some j

/-- Every operation that validates its position argument, applied to `p`,
fails with `InvalidPosition` and leaves the state unchanged. -/
def AllOpsFail (a : Arena α) (t : Tree) (p : Pos) : Prop :=
  parent a t p = .error .invalidPosition ∧
  left a t p = .error .invalidPosition ∧
  right a t p = .error .invalidPosition ∧
  num_children a t p = .error .invalidPosition ∧
  is_leaf a t p = .error .invalidPosition ∧
  (∀ e, replace a t p e = (.error .invalidPosition, a, t)) ∧
  (∀ e, add_left a t p e = (.error .invalidPosition, a, t)) ∧
  (∀ e, add_right a t p e = (.error .invalidPosition, a, t)) ∧
  delete a t p = (.error .invalidPosition, a, t) ∧
  (∀ v1 v2, attach a t p v1 v2 = (.error .invalidPosition, a, t, v1, v2))

/-! ### The demo tree of the spec: root A, A.left B, A.right C, B.left D,
B.right E, C.left F, C.right G, built through the container operations. -/

def exStep1 := add_root ([] : Arena String) (Tree.mk 0 none 0) "A"
def exStep2 := add_left exStep1.2.1 exStep1.2.2 ⟨0, 0⟩ "B"
def exStep3 := add_right exStep2.2.1 exStep2.2.2 ⟨0, 0⟩ "C"
def exStep4 := add_left exStep3.2.1 exStep3.2.2 ⟨0, 1⟩ "D"
def exStep5 := add_right exStep4.2.1 exStep4.2.2 ⟨0, 1⟩ "E"
def exStep6 := add_left exStep5.2.1 exStep5.2.2 ⟨0, 2⟩ "F"
def exStep7 := add_right exStep6.2.1 exStep6.2.2 ⟨0, 2⟩ "G"

/-- The arena after building the demo tree
(indices: A=0, B=1, C=2, D=3, E=4, F=5, G=6). -/
def exArena : Arena String := exStep7.2.1

/-- The demo tree object. -/
def exTree : Tree := exStep7.2.2

/-- The abstract tree of the demo. -/
def exBT : BT String :=
  .node (.node (.node .leaf "D" .leaf) "B" (.node .leaf "E" .leaf)) "A"
    (.node (.node .leaf "F" .leaf) "C" (.node .leaf "G" .leaf))

/-- Deleting the leaf D (index 3) of the demo tree. -/
def exDelD := delete exArena exTree ⟨0, 3⟩

/-! ### A two-tree scenario over a shared heap: tree 0 holds root A, tree 1
holds root X, then X's tree is attached below A.  Afterwards the stale
position of X (issued by tree 1) is deleted through the emptied tree 1. -/

def cxs1 := add_root ([] : Arena String) (Tree.mk 0 none 0) "A"
def cxs2 := add_root cxs1.2.1 (Tree.mk 1 none 0) "X"

/-- Attach tree 1 (root X) and an empty tree 2 below the leaf A. -/
def cxAttach := attach cxs2.2.1 cxs1.2.2 ⟨0, 0⟩ (some cxs2.2.2) (some (Tree.mk 2 none 0))

/-- The emptied source tree 1 after the attach. -/
def cxT1 : Tree := (cxAttach.2.2.2.1).getD (Tree.mk 1 none 0)

/-- Deleting X through the emptied source tree 1, using the stale position
`⟨1, 1⟩` that tree 1 issued before the attach. -/
def cxBreak := delete cxAttach.2.1 cxT1 ⟨1, 1⟩

/-- A third root Y over the shared heap, for the attach witness. -/
def cxs3 := add_root cxs2.2.1 (Tree.mk 2 none 0) "Y"

/-- Attach tree 1 (root X) and tree 2 (root Y) below the leaf A. -/
def cxAttachXY := attach cxs3.2.1 cxs1.2.2 ⟨0, 0⟩ (some cxs2.2.2) (some cxs3.2.2)

/-! ### Basic lemmas about the heap and validation -/

theorem getElem?_updNode {a : Arena α} {i j : Nat} {f : Node α → Node α} :
    (updNode a i f)[j]? = if j = i then (a[i]?).map f else a[j]? := by
  unfold updNode
  cases h : a[i]? with
  | none =>
    by_cases hji : j = i <;> simp [h, hji]
  | some n =>
    have hi : i < a.length := by
      by_contra hlen
      rw [List.getElem?_eq_none (by omega)] at h
      exact Option.noConfusion h
    by_cases hji : j = i
    · subst hji; simp [h, List.getElem?_set_self hi]
    · simp [h, hji, List.getElem?_set_ne (fun hh => hji hh.symm)]

theorem length_updNode {a : Arena α} {i : Nat} {f : Node α → Node α} :
    (updNode a i f).length = a.length := by
  unfold updNode
  cases h : a[i]? <;> simp

/-- An update that keeps the element field keeps every element lookup. -/
theorem element_map_updNode {a : Arena α} {i : Nat} {f : Node α → Node α}
    (hf : ∀ q, (f q).element = q.element) (j : Nat) :
    ((updNode a i f)[j]?).map Node.element = (a[j]?).map Node.element := by
  rw [getElem?_updNode]
  by_cases hji : j = i
  · subst hji; cases h : a[j]? <;> simp [hf]
  · simp [hji]

theorem validate_ok {a : Arena α} {t : Tree} {p : Pos} {i : Nat} {n : Node α} :
    validate a t p = .ok (i, n) ↔
      p.container = t.id ∧ i = p.node ∧ a[p.node]? = some n ∧
        n.parent ≠ some p.node := by
  unfold validate
  by_cases hc : p.container = t.id
  · cases h : a[p.node]? with
    | none => simp [hc, h]
    | some m =>
      by_cases hs : m.parent = some p.node
      · simp only [hc, if_true, h, hs, if_true]
        constructor
        · intro hh; exact absurd hh (by simp)
        · rintro ⟨-, -, hm, hp⟩
          cases hm; exact absurd hs hp
      · simp only [hc, if_true, h, hs, if_false]
        constructor
        · intro hh
          injection hh with hh
          injection hh with h1 h2
          subst h1; subst h2
          exact ⟨trivial, rfl, rfl, hs⟩
        · rintro ⟨-, h1, hm, -⟩
          subst h1; cases hm; rfl
  · simp [hc]

/-! ### Traversal refinement -/

/-- The subtree preorder walk of the arena produces exactly the spec-side
preorder of the extracted abstract subtree. -/
theorem subtree_preorder_extract {a : Arena α} :
    ∀ {fuel : Nat} {i : Nat} {b : BT α},
      extract a fuel (some i) = some b →
      subtree_preorder a fuel i = some b.pre := by
  intro fuel
  induction fuel with
  | zero => intro i b h; simp [extract] at h
  | succ fuel ih =>
    intro i b h
    rw [extract] at h
    rw [subtree_preorder]
    cases hn : a[i]? with
    | none => simp [hn] at h
    | some n =>
      simp only [hn] at h ⊢
      by_cases hs : n.parent = some i
      · simp [hs] at h
      · simp only [hs, if_false] at h ⊢
        cases hl : extract a fuel n.left with
        | none => simp [hl] at h
        | some l =>
          cases hr : extract a fuel n.right with
          | none => simp [hl, hr] at h
          | some r =>
            simp only [hl, hr] at h
            cases h
            have hls : (match n.left with
                | none => some []
                | some l0 => subtree_preorder a fuel l0) = some l.pre := by
              cases hnl : n.left with
              | none => rw [hnl] at hl; rw [extract] at hl; cases hl; rfl
              | some l0 => rw [hnl] at hl; simpa using ih hl
            have hrs : (match n.right with
                | none => some []
                | some r0 => subtree_preorder a fuel r0) = some r.pre := by
              cases hnr : n.right with
              | none => rw [hnr] at hr; rw [extract] at hr; cases hr; rfl
              | some r0 => rw [hnr] at hr; simpa using ih hr
            rw [hls, hrs]
            rfl

/-- The subtree inorder walk of the arena produces exactly the spec-side
inorder of the extracted abstract subtree. -/
theorem subtree_inorder_extract {a : Arena α} :
    ∀ {fuel : Nat} {i : Nat} {b : BT α},
      extract a fuel (some i) = some b →
      subtree_inorder a fuel i = some b.ino := by
  intro fuel
  induction fuel with
  | zero => intro i b h; simp [extract] at h
  | succ fuel ih =>
    intro i b h
    rw [extract] at h
    rw [subtree_inorder]
    cases hn : a[i]? with
    | none => simp [hn] at h
    | some n =>
      simp only [hn] at h ⊢
      by_cases hs : n.parent = some i
      · simp [hs] at h
      · simp only [hs, if_false] at h ⊢
        cases hl : extract a fuel n.left with
        | none => simp [hl] at h
        | some l =>
          cases hr : extract a fuel n.right with
          | none => simp [hl, hr] at h
          | some r =>
            simp only [hl, hr] at h
            cases h
            have hls : (match n.left with
                | none => some []
                | some l0 => subtree_inorder a fuel l0) = some l.ino := by
              cases hnl : n.left with
              | none => rw [hnl] at hl; rw [extract] at hl; cases hl; rfl
              | some l0 => rw [hnl] at hl; simpa using ih hl
            have hrs : (match n.right with
                | none => some []
                | some r0 => subtree_inorder a fuel r0) = some r.ino := by
              cases hnr : n.right with
              | none => rw [hnr] at hr; rw [extract] at hr; cases hr; rfl
              | some r0 => rw [hnr] at hr; simpa using ih hr
            rw [hls, hrs]
            rfl

/-- C1: on every tree whose arena graph extracts to an abstract tree `b`
(with the size counter coherent with the root reference), `preorder()`
produces exactly the spec-side preorder of `b` — each node's element before
the left subtree's elements before the right subtree's — and `inorder()`
produces the spec-side inorder — left subtree's elements, node's element,
right subtree's elements; on an empty tree (`b = leaf`) both are empty. -/
theorem C1_traversal_orders {α : Type} (a : Arena α) (t : Tree) (fuel : Nat)
    (b : BT α) (hcoh : t.size = 0 ↔ t.root = none)
    (hex : extract a fuel t.root = some b) :
    preorder a t fuel = some b.pre ∧ inorder a t fuel = some b.ino := by
  unfold preorder inorder
  by_cases hsz : t.size = 0
  · have hr : t.root = none := hcoh.mp hsz
    rw [hr] at hex
    have hb : b = BT.leaf := by
      cases fuel <;> simpa [extract] using hex.symm
    subst hb
    simp [hsz, BT.pre, BT.ino]
  · have hr : t.root ≠ none := fun h => hsz (hcoh.mpr h)
    cases ht : t.root with
    | none => exact absurd ht hr
    | some r =>
      rw [ht] at hex
      simp only [hsz, if_false, ht]
      exact ⟨subtree_preorder_extract hex, subtree_inorder_extract hex⟩

/-- Witness for C1 at the demo tree and at an empty tree: the traversals
yield exactly `[A,B,D,E,C,F,G]` and `[D,B,E,A,F,C,G]`, and both are empty on
the empty tree. -/
theorem C1_traversal_orders_witness :
    (exTree.size = 0 ↔ exTree.root = none) ∧
    extract exArena 8 exTree.root = some exBT ∧
    preorder exArena exTree 8 = some ["A", "B", "D", "E", "C", "F", "G"] ∧
    inorder exArena exTree 8 = some ["D", "B", "E", "A", "F", "C", "G"] ∧
    preorder exArena (Tree.mk 1 none 0) 8 = some [] ∧
    inorder exArena (Tree.mk 1 none 0) 8 = some [] := by
  have h := C1_traversal_orders exArena exTree 8 exBT (by decide) (by rfl)
  have h0 := C1_traversal_orders exArena (Tree.mk 1 none 0) 8 .leaf (by decide) (by rfl)
  exact ⟨by decide, rfl, h.1, h.2, h0.1, h0.2⟩

/-! ### The success path of `delete` -/

theorem delete_ok_spec {α : Type} {a : Arena α} {t : Tree} {p : Pos} {i : Nat}
    {n : Node α} (hv : validate a t p = .ok (i, n))
    (hch : (n.left.isSome && n.right.isSome) = false) :
    delete a t p =
      (.ok n.element,
       updNode (deleteRelink a t i n) i fun q => { q with parent := some i },
       { t with root := if t.root = some i then n.childOf else t.root,
                size := t.size - 1 }) := by
  simp only [delete, deleteRelink, hv, hch, Bool.false_eq_true, if_false]
  by_cases hr : t.root = some i
  · simp only [hr, if_true]
  · simp only [hr, if_false]
    cases hp : n.parent <;> simp only [hp]

theorem isSome_getElem?_updNode {a : Arena α} {i j : Nat} {f : Node α → Node α} :
    ((updNode a i f)[j]?).isSome = (a[j]?).isSome := by
  rw [getElem?_updNode]
  by_cases hji : j = i
  · subst hji; cases a[j]? <;> simp
  · simp [hji]

theorem element_map_deleteRelink {a : Arena α} {t : Tree} {i : Nat}
    {n : Node α} (j : Nat) :
    ((deleteRelink a t i n)[j]?).map Node.element = (a[j]?).map Node.element := by
  have hupdP : ∀ (b : Arena α) (k : Nat) (pa : Option Nat) (jj : Nat),
      ((updNode b k fun q => { q with parent := pa })[jj]?).map Node.element
        = (b[jj]?).map Node.element := by
    intro b k pa jj
    exact @element_map_updNode α b k (fun q => { q with parent := pa }) (fun q => rfl) jj
  have hupdL : ∀ (b : Arena α) (k : Nat) (c : Option Nat) (jj : Nat),
      ((updNode b k fun q => { q with left := c })[jj]?).map Node.element
        = (b[jj]?).map Node.element := by
    intro b k c jj
    exact @element_map_updNode α b k (fun q => { q with left := c }) (fun q => rfl) jj
  have hupdR : ∀ (b : Arena α) (k : Nat) (c : Option Nat) (jj : Nat),
      ((updNode b k fun q => { q with right := c })[jj]?).map Node.element
        = (b[jj]?).map Node.element := by
    intro b k c jj
    exact @element_map_updNode α b k (fun q => { q with right := c }) (fun q => rfl) jj
  simp only [deleteRelink]
  repeat' split
  all_goals simp only [hupdP, hupdL, hupdR]

theorem isSome_deleteRelink {a : Arena α} {t : Tree} {i : Nat}
    {n : Node α} (j : Nat) :
    ((deleteRelink a t i n)[j]?).isSome = (a[j]?).isSome := by
  simp only [deleteRelink]
  repeat' split
  all_goals simp only [isSome_getElem?_updNode]

/-! ### Fuel monotonicity and reach lemmas -/

theorem extract_mono {a : Arena α} :
    ∀ {fuel fuel' : Nat} {o : Option Nat} {b : BT α},
      extract a fuel o = some b → fuel ≤ fuel' → extract a fuel' o = some b := by
  intro fuel
  induction fuel with
  | zero =>
    intro fuel' o b h hle
    cases o with
    | none => cases fuel' <;> simpa [extract] using h
    | some i => simp [extract] at h
  | succ fuel ih =>
    intro fuel' o b h hle
    cases o with
    | none => cases fuel' <;> simpa [extract] using h
    | some i =>
      cases fuel' with
      | zero => omega
      | succ fuel2 =>
        have hle2 : fuel ≤ fuel2 := by omega
        rw [extract] at h ⊢
        cases hn : a[i]? with
        | none => simp [hn] at h
        | some n =>
          simp only [hn] at h ⊢
          by_cases hs : n.parent = some i
          · simp [hs] at h
          · simp only [hs, if_false] at h ⊢
            cases hl : extract a fuel n.left with
            | none => simp [hl] at h
            | some l =>
              cases hr : extract a fuel n.right with
              | none => simp [hl, hr] at h
              | some r =>
                rw [ih hl hle2, ih hr hle2]
                simpa [hl, hr] using h

theorem reach_mono {a : Arena α} :
    ∀ {fuel fuel' : Nat} {o : Option Nat} {b : BT α},
      extract a fuel o = some b → fuel ≤ fuel' → reach a fuel' o = reach a fuel o := by
  intro fuel
  induction fuel with
  | zero =>
    intro fuel' o b h hle
    cases o with
    | none => cases fuel' <;> simp [reach]
    | some i => simp [extract] at h
  | succ fuel ih =>
    intro fuel' o b h hle
    cases o with
    | none => cases fuel' <;> simp [reach]
    | some i =>
      cases fuel' with
      | zero => omega
      | succ fuel2 =>
        have hle2 : fuel ≤ fuel2 := by omega
        rw [extract] at h
        rw [reach, reach]
        cases hn : a[i]? with
        | none => simp [hn] at h
        | some n =>
          simp only [hn] at h ⊢
          by_cases hs : n.parent = some i
          · simp [hs] at h
          · simp only [hs, if_false] at h ⊢
            cases hl : extract a fuel n.left with
            | none => simp [hl] at h
            | some l =>
              cases hr : extract a fuel n.right with
              | none => simp [hl, hr] at h
              | some r =>
                rw [ih hl hle2, ih hr hle2]

theorem reach_length {a : Arena α} :
    ∀ {fuel : Nat} {o : Option Nat} {b : BT α},
      extract a fuel o = some b → (reach a fuel o).length = b.size := by
  intro fuel
  induction fuel with
  | zero =>
    intro o b h
    cases o with
    | none =>
      rw [extract] at h
      injection h with h
      subst h
      simp [reach, BT.size]
    | some i => simp [extract] at h
  | succ fuel ih =>
    intro o b h
    cases o with
    | none =>
      rw [extract] at h
      injection h with h
      subst h
      simp [reach, BT.size]
    | some i =>
      rw [extract] at h
      rw [reach]
      cases hn : a[i]? with
      | none => simp [hn] at h
      | some n =>
        simp only [hn] at h ⊢
        by_cases hs : n.parent = some i
        · simp [hs] at h
        · simp only [hs, if_false] at h ⊢
          cases hl : extract a fuel n.left with
          | none => simp [hl] at h
          | some l =>
            cases hr : extract a fuel n.right with
            | none => simp [hl, hr] at h
            | some r =>
              simp only [hl, hr] at h
              injection h with h
              subst h
              simp only [BT.size, List.length_cons, List.length_append, ih hl, ih hr]
              omega

theorem extract_some_pos {a : Arena α} {fuel i : Nat} {b : BT α}
    (h : extract a fuel (some i) = some b) : 0 < b.size := by
  cases fuel with
  | zero => simp [extract] at h
  | succ fuel =>
    rw [extract] at h
    cases hn : a[i]? with
    | none => simp [hn] at h
    | some n =>
      simp only [hn] at h
      by_cases hs : n.parent = some i
      · simp [hs] at h
      · simp only [hs, if_false] at h
        cases hl : extract a fuel n.left with
        | none => simp [hl] at h
        | some l =>
          cases hr : extract a fuel n.right with
          | none => simp [hl, hr] at h
          | some r =>
            simp only [hl, hr] at h
            injection h with h
            subst h
            simp only [BT.size]
            omega

/-- Two successful extractions of the same reference agree. -/
theorem extract_unique {a : Arena α} {fuel fuel' : Nat} {o : Option Nat}
    {b b' : BT α} (h : extract a fuel o = some b)
    (h' : extract a fuel' o = some b') : b = b' := by
  rcases Nat.le_total fuel fuel' with hle | hle
  · have h2 := extract_mono h hle
    rw [h'] at h2
    exact (Option.some_inj.mp h2).symm
  · have h2 := extract_mono h' hle
    rw [h] at h2
    exact Option.some_inj.mp h2

/-- A successful extraction of the same reference at two fuels reaches the
same index list. -/
theorem reach_unique {a : Arena α} {fuel fuel' : Nat} {o : Option Nat}
    {b b' : BT α} (h : extract a fuel o = some b)
    (h' : extract a fuel' o = some b') :
    reach a fuel o = reach a fuel' o := by
  rcases Nat.le_total fuel fuel' with hle | hle
  · exact (reach_mono h hle).symm
  · exact reach_mono h' hle

/-- `extract` cannot see a benign heap change on the reached nodes. -/
theorem extract_benign {a a' : Arena α} :
    ∀ {fuel : Nat} {o : Option Nat} {b : BT α},
      extract a fuel o = some b →
      (∀ j, j ∈ reach a fuel o → benign a a' j) →
      extract a' fuel o = some b := by
  intro fuel
  induction fuel with
  | zero =>
    intro o b h hben
    cases o with
    | none => exact h
    | some i => simp [extract] at h
  | succ fuel ih =>
    intro o b h hben
    cases o with
    | none => exact h
    | some i =>
      rw [extract] at h
      cases hn : a[i]? with
      | none => simp [hn] at h
      | some n =>
        simp only [hn] at h
        by_cases hs : n.parent = some i
        · simp [hs] at h
        · simp only [hs, if_false] at h
          cases hl : extract a fuel n.left with
          | none => simp [hl] at h
          | some l =>
            cases hr : extract a fuel n.right with
            | none => simp [hl, hr] at h
            | some r =>
              simp only [hl, hr] at h
              injection h with h
              subst h
              have hmemi : i ∈ reach a (fuel+1) (some i) := by
                rw [reach]
                simp [hn, hs]
              have hbenL : ∀ j, j ∈ reach a fuel n.left → benign a a' j := by
                intro j hj
                apply hben
                rw [reach]
                simp only [hn, hs, if_false]
                exact List.mem_cons_of_mem _ (List.mem_append_left _ hj)
              have hbenR : ∀ j, j ∈ reach a fuel n.right → benign a a' j := by
                intro j hj
                apply hben
                rw [reach]
                simp only [hn, hs, if_false]
                exact List.mem_cons_of_mem _ (List.mem_append_right _ hj)
              obtain ⟨n', hn', he, hl2, hr2, hp2⟩ :
                  ∃ n', a'[i]? = some n' ∧ n'.element = n.element ∧
                    n'.left = n.left ∧ n'.right = n.right ∧ n'.parent ≠ some i := by
                rcases hben i hmemi with h1 | ⟨m, pa, hm, hm', hpa⟩
                · exact ⟨n, by rw [h1, hn], rfl, rfl, rfl, hs⟩
                · rw [hn] at hm
                  injection hm with hm
                  subst hm
                  exact ⟨_, hm', rfl, rfl, rfl, by simpa using hpa⟩
              rw [extract]
              simp only [hn', hp2, if_false, hl2, hr2, ih hl hbenL, ih hr hbenR, he]

/-- A reached index extracts successfully, to a preorder-contiguous part of
the reach list. -/
theorem mem_reach_extract {a : Arena α} :
    ∀ {fuel : Nat} {o : Option Nat} {b : BT α} {q : Nat},
      extract a fuel o = some b → q ∈ reach a fuel o →
      ∃ bq, extract a fuel (some q) = some bq ∧
        (reach a fuel (some q)).Sublist (reach a fuel o) := by
  intro fuel
  induction fuel with
  | zero =>
    intro o b q h hq
    cases o with
    | none => simp [reach] at hq
    | some i => simp [extract] at h
  | succ fuel ih =>
    intro o b q h hq
    cases o with
    | none => simp [reach] at hq
    | some i =>
      rw [extract] at h
      rw [reach] at hq
      cases hn : a[i]? with
      | none => simp [hn] at h
      | some n =>
        simp only [hn] at h hq
        by_cases hs : n.parent = some i
        · simp [hs] at h
        · simp only [hs, if_false] at h hq
          cases hl : extract a fuel n.left with
          | none => simp [hl] at h
          | some l =>
            cases hr : extract a fuel n.right with
            | none => simp [hl, hr] at h
            | some r =>
              have hro : reach a (fuel+1) (some i) =
                  i :: (reach a fuel n.left ++ reach a fuel n.right) := by
                rw [reach]
                simp [hn, hs]
              rcases List.mem_cons.mp hq with hq1 | hq2
              · subst hq1
                refine ⟨b, ?_, List.Sublist.refl _⟩
                rw [extract]
                simp only [hn, hs, if_false]
                exact h
              · rcases List.mem_append.mp hq2 with hqL | hqR
                · obtain ⟨bq, hbq, hsub⟩ := ih hl hqL
                  refine ⟨bq, extract_mono hbq (Nat.le_succ _), ?_⟩
                  rw [reach_mono hbq (Nat.le_succ _), hro]
                  exact List.Sublist.cons i
                    (hsub.trans (List.sublist_append_left _ _))
                · obtain ⟨bq, hbq, hsub⟩ := ih hr hqR
                  refine ⟨bq, extract_mono hbq (Nat.le_succ _), ?_⟩
                  rw [reach_mono hbq (Nat.le_succ _), hro]
                  exact List.Sublist.cons i
                    (hsub.trans (List.sublist_append_right _ _))

/-- In a back-link-consistent graph, a reached index is either the entry
reference itself (with its parent field equal to the entry's parent), or a
child slot of some reached node `q` with its parent field pointing at `q`. -/
theorem conspar_locate {a : Arena α} :
    ∀ {fuel : Nat} {o po : Option Nat} {b : BT α} {i : Nat},
      extract a fuel o = some b → conspar a fuel o po = true →
      i ∈ reach a fuel o →
      (o = some i ∧ ∃ n, a[i]? = some n ∧ n.parent = po) ∨
      (∃ q nq ni, q ∈ reach a fuel o ∧ a[q]? = some nq ∧
        (nq.left = some i ∨ nq.right = some i) ∧ a[i]? = some ni ∧
        ni.parent = some q) := by
  intro fuel
  induction fuel with
  | zero =>
    intro o po b i h hc hm
    cases o with
    | none => simp [reach] at hm
    | some j => simp [extract] at h
  | succ fuel ih =>
    intro o po b i h hc hm
    cases o with
    | none => simp [reach] at hm
    | some j =>
      rw [extract] at h
      rw [conspar] at hc
      rw [reach] at hm
      cases hn : a[j]? with
      | none => simp [hn] at h
      | some n =>
        simp only [hn] at h hc hm
        by_cases hs : n.parent = some j
        · simp [hs] at h
        · simp only [hs, if_false] at h hm
          rw [Bool.and_eq_true, Bool.and_eq_true, decide_eq_true_eq] at hc
          obtain ⟨⟨hpo, hcl⟩, hcr⟩ := hc
          cases hl : extract a fuel n.left with
          | none => simp [hl] at h
          | some l =>
            cases hr : extract a fuel n.right with
            | none => simp [hl, hr] at h
            | some r =>
              have hro : reach a (fuel+1) (some j) =
                  j :: (reach a fuel n.left ++ reach a fuel n.right) := by
                rw [reach]
                simp [hn, hs]
              have hjm : j ∈ reach a (fuel+1) (some j) := by
                rw [hro]
                exact List.mem_cons_self _ _
              rcases List.mem_cons.mp hm with h1 | h2
              · subst h1
                exact Or.inl ⟨rfl, n, hn, hpo⟩
              · rcases List.mem_append.mp h2 with hL | hR
                · rcases ih hl hcl hL with ⟨ho', n2, hn2, hp2⟩ | ⟨q, nq, ni, hqm, hnq, hslot, hni, hip⟩
                  · exact Or.inr ⟨j, n, n2, hjm, hn, Or.inl ho', hn2, hp2⟩
                  · exact Or.inr ⟨q, nq, ni,
                      by rw [hro]; exact List.mem_cons_of_mem _ (List.mem_append_left _ hqm),
                      hnq, hslot, hni, hip⟩
                · rcases ih hr hcr hR with ⟨ho', n2, hn2, hp2⟩ | ⟨q, nq, ni, hqm, hnq, hslot, hni, hip⟩
                  · exact Or.inr ⟨j, n, n2, hjm, hn, Or.inr ho', hn2, hp2⟩
                  · exact Or.inr ⟨q, nq, ni,
                      by rw [hro]; exact List.mem_cons_of_mem _ (List.mem_append_right _ hqm),
                      hnq, hslot, hni, hip⟩

/-- Grafting: replace the subtree hanging at a reached pivot index.  If the
heap changes benignly outside the pivot's old subtree, and the pivot
extracts to `bNew` in the new heap (it extracted to `bOld` in the old one),
then the whole tree still extracts, and its node count changes by the
difference of the pivot subtree's counts. -/
theorem extract_graft {a a' : Arena α} {piv fuelP fuel2 : Nat} {bOld bNew : BT α}
    (hold : extract a fuelP (some piv) = some bOld)
    (hnew : extract a' fuel2 (some piv) = some bNew) :
    ∀ {fuel : Nat} {o : Option Nat} {b : BT α},
      extract a fuel o = some b →
      (reach a fuel o).Nodup →
      piv ∈ reach a fuel o →
      (∀ j, j ∈ reach a fuel o → j ∉ reach a fuelP (some piv) → benign a a' j) →
      ∃ b', extract a' (fuel + fuel2) o = some b' ∧
        b'.size + bOld.size = b.size + bNew.size := by
  intro fuel
  induction fuel with
  | zero =>
    intro o b h hnd hmem hben
    cases o with
    | none => simp [reach] at hmem
    | some j => simp [extract] at h
  | succ fuel ih =>
    intro o b h hnd hmem hben
    cases o with
    | none => simp [reach] at hmem
    | some j =>
      rw [extract] at h
      cases hn : a[j]? with
      | none => simp [hn] at h
      | some n =>
        simp only [hn] at h
        by_cases hs : n.parent = some j
        · simp [hs] at h
        · simp only [hs, if_false] at h
          cases hl : extract a fuel n.left with
          | none => simp [hl] at h
          | some l =>
            cases hr : extract a fuel n.right with
            | none => simp [hl, hr] at h
            | some r =>
              simp only [hl, hr] at h
              injection h with h
              subst h
              have hro : reach a (fuel+1) (some j) =
                  j :: (reach a fuel n.left ++ reach a fuel n.right) := by
                rw [reach]
                simp [hn, hs]
              rw [hro] at hnd hmem hben
              obtain ⟨hj1, hnd2⟩ := List.nodup_cons.mp hnd
              obtain ⟨hndl, hndr, hdisj⟩ := List.nodup_append.mp hnd2
              have hstit : extract a (fuel+1) (some j) =
                  some (BT.node l n.element r) := by
                rw [extract]
                simp [hn, hs, hl, hr]
              rcases List.mem_cons.mp hmem with hpj | hmem2
              · subst hpj
                have hob : bOld = BT.node l n.element r := extract_unique hold hstit
                refine ⟨bNew, extract_mono hnew (by omega), ?_⟩
                rw [hob]
                omega
              · rcases List.mem_append.mp hmem2 with hL | hR
                · have hbenL : ∀ j', j' ∈ reach a fuel n.left →
                      j' ∉ reach a fuelP (some piv) → benign a a' j' :=
                    fun j' hj' hnp =>
                      hben j' (List.mem_cons_of_mem _ (List.mem_append_left _ hj')) hnp
                  obtain ⟨bl', hbl', hszl⟩ := ih hl hndl hL hbenL
                  obtain ⟨bP, hbP, hsubP⟩ := mem_reach_extract hl hL
                  have hreP : reach a fuelP (some piv) = reach a fuel (some piv) :=
                    reach_unique hold hbP
                  have hbenR : ∀ j', j' ∈ reach a fuel n.right → benign a a' j' := by
                    intro j' hj'
                    apply hben j' (List.mem_cons_of_mem _ (List.mem_append_right _ hj'))
                    intro hmemP
                    rw [hreP] at hmemP
                    exact hdisj (hsubP.subset hmemP) hj'
                  have hR2 : extract a' fuel n.right = some r := extract_benign hr hbenR
                  have hjben : benign a a' j := by
                    apply hben j (List.mem_cons_self _ _)
                    intro hjP
                    rw [hreP] at hjP
                    exact hj1 (List.mem_append_left _ (hsubP.subset hjP))
                  obtain ⟨n', hn', he, hl2, hr2, hp2⟩ :
                      ∃ n', a'[j]? = some n' ∧ n'.element = n.element ∧
                        n'.left = n.left ∧ n'.right = n.right ∧ n'.parent ≠ some j := by
                    rcases hjben with h1 | ⟨m, pa, hm, hm', hpa⟩
                    · exact ⟨n, by rw [h1, hn], rfl, rfl, rfl, hs⟩
                    · rw [hn] at hm
                      injection hm with hm
                      subst hm
                      exact ⟨_, hm', rfl, rfl, rfl, by simpa using hpa⟩
                  have harith : fuel + 1 + fuel2 = (fuel + fuel2) + 1 := by omega
                  refine ⟨BT.node bl' n.element r, ?_, ?_⟩
                  · rw [harith, extract]
                    simp only [hn', hp2, if_false, hl2, hr2, hbl',
                      extract_mono hR2 (by omega : fuel ≤ fuel + fuel2), he]
                  · simp only [BT.size] at hszl ⊢
                    omega
                · have hbenR : ∀ j', j' ∈ reach a fuel n.right →
                      j' ∉ reach a fuelP (some piv) → benign a a' j' :=
                    fun j' hj' hnp =>
                      hben j' (List.mem_cons_of_mem _ (List.mem_append_right _ hj')) hnp
                  obtain ⟨br', hbr', hszr⟩ := ih hr hndr hR hbenR
                  obtain ⟨bP, hbP, hsubP⟩ := mem_reach_extract hr hR
                  have hreP : reach a fuelP (some piv) = reach a fuel (some piv) :=
                    reach_unique hold hbP
                  have hbenL : ∀ j', j' ∈ reach a fuel n.left → benign a a' j' := by
                    intro j' hj'
                    apply hben j' (List.mem_cons_of_mem _ (List.mem_append_left _ hj'))
                    intro hmemP
                    rw [hreP] at hmemP
                    exact hdisj hj' (hsubP.subset hmemP)
                  have hL2 : extract a' fuel n.left = some l := extract_benign hl hbenL
                  have hjben : benign a a' j := by
                    apply hben j (List.mem_cons_self _ _)
                    intro hjP
                    rw [hreP] at hjP
                    exact hj1 (List.mem_append_right _ (hsubP.subset hjP))
                  obtain ⟨n', hn', he, hl2, hr2, hp2⟩ :
                      ∃ n', a'[j]? = some n' ∧ n'.element = n.element ∧
                        n'.left = n.left ∧ n'.right = n.right ∧ n'.parent ≠ some j := by
                    rcases hjben with h1 | ⟨m, pa, hm, hm', hpa⟩
                    · exact ⟨n, by rw [h1, hn], rfl, rfl, rfl, hs⟩
                    · rw [hn] at hm
                      injection hm with hm
                      subst hm
                      exact ⟨_, hm', rfl, rfl, rfl, by simpa using hpa⟩
                  have harith : fuel + 1 + fuel2 = (fuel + fuel2) + 1 := by omega
                  refine ⟨BT.node l n.element br', ?_, ?_⟩
                  · rw [harith, extract]
                    simp only [hn', hp2, if_false, hl2, hr2, hbr',
                      extract_mono hL2 (by omega : fuel ≤ fuel + fuel2), he]
                  · simp only [BT.size] at hszr ⊢
                    omega

theorem extract_none (a : Arena α) (fuel : Nat) :
    extract a fuel none = some .leaf := by
  cases fuel <;> rfl

theorem reach_none (a : Arena α) (fuel : Nat) : reach a fuel none = [] := by
  cases fuel <;> rfl

theorem mem_reach_self {a : Arena α} {fuel q : Nat} {bq : BT α}
    (h : extract a fuel (some q) = some bq) : q ∈ reach a fuel (some q) := by
  cases fuel with
  | zero => simp [extract] at h
  | succ fuel =>
    rw [extract] at h
    rw [reach]
    cases hn : a[q]? with
    | none => simp [hn] at h
    | some n =>
      simp only [hn] at h ⊢
      by_cases hs : n.parent = some q
      · simp [hs] at h
      · simp [hs]

theorem mem_reach_isSome {a : Arena α} :
    ∀ {fuel : Nat} {o : Option Nat} {j : Nat},
      j ∈ reach a fuel o → ∃ nj, a[j]? = some nj := by
  intro fuel
  induction fuel with
  | zero =>
    intro o j hj
    cases o <;> simp [reach] at hj
  | succ fuel ih =>
    intro o j hj
    cases o with
    | none => simp [reach] at hj
    | some i =>
      rw [reach] at hj
      cases hn : a[i]? with
      | none => simp [hn] at hj
      | some n =>
        simp only [hn] at hj
        by_cases hs : n.parent = some i
        · simp [hs] at hj
        · simp only [hs, if_false] at hj
          rcases List.mem_cons.mp hj with h1 | h2
          · subst h1
            exact ⟨n, hn⟩
          · rcases List.mem_append.mp h2 with hL | hR
            · exact ih hL
            · exact ih hR

/-- The success path of `attach`: validation passed on a leaf, both
arguments are container instances, the sources' size counters cohere with
their root references. -/
theorem attach_ok_spec {α : Type} {a : Arena α} {t t1 t2 : Tree} {p : Pos}
    {i : Nat} {n : Node α} (hv : validate a t p = .ok (i, n))
    (hleaf : n.left = none ∧ n.right = none)
    (hc1 : t1.size = 0 ↔ t1.root = none)
    (hc2 : t2.size = 0 ↔ t2.root = none) :
    attach a t p (some t1) (some t2) =
      (.ok (), attachArena a i t1 t2,
       { t with size := t.size + t1.size + t2.size },
       some (if t1.size = 0 then t1 else { t1 with root := none, size := 0 }),
       some (if t2.size = 0 then t2 else { t2 with root := none, size := 0 })) := by
  have hch : (n.left.isSome || n.right.isSome) = false := by
    simp [hleaf.1, hleaf.2]
  simp only [attach, attachArena, hv, hch, Bool.false_eq_true, if_false]
  by_cases h1 : t1.size = 0
  · by_cases h2 : t2.size = 0
    · simp only [h1, h2, if_true]
    · simp only [h1, h2, if_true, if_false]
      cases ht2 : t2.root with
      | none => exact absurd (hc2.mpr ht2) h2
      | some r2 => simp only []
  · cases ht1 : t1.root with
    | none => exact absurd (hc1.mpr ht1) h1
    | some r1 =>
      by_cases h2 : t2.size = 0
      · simp only [h1, h2, if_true, if_false, ht1]
      · simp only [h1, h2, if_false, ht1]
        cases ht2 : t2.root with
        | none => exact absurd (hc2.mpr ht2) h2
        | some r2 => simp only []

/-- After the `attach` splice at leaf `i`: the leaf's slots now hold the
source roots, the subtree at `i` extracts to the node over the two source
trees, and every other node's change is benign (at most a re-parenting of a
source root). -/
theorem attachArena_extract {α : Type} {a : Arena α} {t1 t2 : Tree} {i : Nat}
    {n : Node α} {fuel1 fuel2 : Nat} {b1 b2 : BT α}
    (hm : a[i]? = some n)
    (hsent : n.parent ≠ some i)
    (hleaf : n.left = none ∧ n.right = none)
    (hc1 : t1.size = 0 ↔ t1.root = none)
    (hc2 : t2.size = 0 ↔ t2.root = none)
    (hb1 : extract a fuel1 t1.root = some b1)
    (hb2 : extract a fuel2 t2.root = some b2)
    (hd1 : i ∉ reach a fuel1 t1.root)
    (hd2 : i ∉ reach a fuel2 t2.root) :
    (attachArena a i t1 t2)[i]? =
      some { n with left := t1.root, right := t2.root } ∧
    extract (attachArena a i t1 t2) (max fuel1 fuel2 + 1) (some i) =
      some (.node b1 n.element b2) ∧
    ∀ j, j ≠ i → benign a (attachArena a i t1 t2) j := by
  have hrecBoth : ∀ (m : Node α), m.left = none → m.right = none →
      ({ m with left := (none : Option Nat), right := (none : Option Nat) } : Node α) = m := by
    intro m hx hy
    obtain ⟨me, mp, ml, mr⟩ := m
    simp only [Node.mk.injEq]
    simp only at hx hy
    simp [hx, hy]
  have hrecL : ∀ (m : Node α) (x : Option Nat), m.left = none →
      ({ m with left := (none : Option Nat), right := x } : Node α) =
        { m with right := x } := by
    intro m x hx
    obtain ⟨me, mp, ml, mr⟩ := m
    simp only [Node.mk.injEq]
    simp only at hx
    simp [hx]
  have hrecR : ∀ (m : Node α) (x : Option Nat), m.right = none →
      ({ m with left := x, right := (none : Option Nat) } : Node α) =
        { m with left := x } := by
    intro m x hy
    obtain ⟨me, mp, ml, mr⟩ := m
    simp only [Node.mk.injEq]
    simp only at hy
    simp [hy]
  by_cases h1 : t1.size = 0
  · have hr1 : t1.root = none := hc1.mp h1
    have hb1l : b1 = .leaf := by
      rw [hr1, extract_none] at hb1
      exact (Option.some_inj.mp hb1).symm
    subst hb1l
    by_cases h2 : t2.size = 0
    · -- both sources empty: the arena is untouched
      have hr2 : t2.root = none := hc2.mp h2
      have hb2l : b2 = .leaf := by
        rw [hr2, extract_none] at hb2
        exact (Option.some_inj.mp hb2).symm
      subst hb2l
      have haa : attachArena a i t1 t2 = a := by
        simp [attachArena, h1, h2]
      refine ⟨?_, ?_, ?_⟩
      · rw [haa, hr1, hr2, hrecBoth n hleaf.1 hleaf.2]
        exact hm
      · rw [haa, extract]
        simp only [hm, hsent, if_false, hleaf.1, hleaf.2, extract_none]
      · intro j _
        rw [haa]
        exact Or.inl rfl
    · -- only t2 non-empty
      cases ht2 : t2.root with
      | none => exact absurd (hc2.mpr ht2) h2
      | some r2 =>
        rw [ht2] at hb2 hd2
        have hir2 : i ≠ r2 := fun heq => hd2 (by rw [heq]; exact mem_reach_self hb2)
        have haa : attachArena a i t1 t2 =
            updNode (updNode a r2 fun q => { q with parent := some i }) i
              fun q => { q with right := some r2 } := by
          simp [attachArena, h1, h2, ht2]
        have hinner : (updNode a r2 fun q => { q with parent := some i })[i]? = some n := by
          rw [getElem?_updNode, if_neg hir2]
          exact hm
        have hAi : (attachArena a i t1 t2)[i]? = some { n with right := some r2 } := by
          rw [haa, getElem?_updNode, if_pos rfl, hinner]
          rfl
        have hben : ∀ j, j ≠ i → benign a (attachArena a i t1 t2) j := by
          intro j hji
          rw [haa]
          by_cases hjr : j = r2
          · subst hjr
            cases hnj : a[j]? with
            | none =>
              refine Or.inl ?_
              rw [getElem?_updNode, if_neg hji,
                getElem?_updNode, if_pos rfl, hnj]
              rfl
            | some nj =>
              refine Or.inr ⟨nj, some i, hnj, ?_, fun hh => hir2 (Option.some_inj.mp hh)⟩
              rw [getElem?_updNode, if_neg hji,
                getElem?_updNode, if_pos rfl, hnj]
              rfl
          · refine Or.inl ?_
            rw [getElem?_updNode, if_neg hji,
              getElem?_updNode, if_neg hjr]
        have hx2 : extract (attachArena a i t1 t2) fuel2 (some r2) = some b2 :=
          extract_benign hb2 (fun j hj => hben j (fun hh => hd2 (hh ▸ hj)))
        refine ⟨?_, ?_, hben⟩
        · rw [hr1, hrecL n (some r2) hleaf.1]
          exact hAi
        · rw [extract]
          simp only [hAi, if_false, hleaf.1, extract_none]
          have hsent2 : ({ n with right := some r2 } : Node α).parent = some i ↔ False := by
            simpa using hsent
          simp only [hsent2, if_false]
          rw [extract_mono hx2 (by omega : fuel2 ≤ max fuel1 fuel2)]
  · -- t1 non-empty
    cases ht1 : t1.root with
    | none => exact absurd (hc1.mpr ht1) h1
    | some r1 =>
      rw [ht1] at hb1 hd1
      have hir1 : i ≠ r1 := fun heq => hd1 (by rw [heq]; exact mem_reach_self hb1)
      have hA1 : (if t1.size = 0 then a
          else
            match t1.root with
            | some r1 =>
              updNode (updNode a r1 fun q => { q with parent := some i }) i
                fun q => { q with left := some r1 }
            | none => a) =
          updNode (updNode a r1 fun q => { q with parent := some i }) i
            fun q => { q with left := some r1 } := by
        simp [h1, ht1]
      have hA1i : (updNode (updNode a r1 fun q => { q with parent := some i }) i
          fun q => { q with left := some r1 })[i]? = some { n with left := some r1 } := by
        rw [getElem?_updNode, if_pos rfl, getElem?_updNode, if_neg hir1, hm]
        rfl
      have hbenA1 : ∀ j, j ≠ i →
          benign a (updNode (updNode a r1 fun q => { q with parent := some i }) i
            fun q => { q with left := some r1 }) j := by
        intro j hji
        by_cases hjr : j = r1
        · subst hjr
          cases hnj : a[j]? with
          | none =>
            refine Or.inl ?_
            rw [getElem?_updNode, if_neg hji,
              getElem?_updNode, if_pos rfl, hnj]
            rfl
          | some nj =>
            refine Or.inr ⟨nj, some i, hnj, ?_, fun hh => hir1 (Option.some_inj.mp hh)⟩
            rw [getElem?_updNode, if_neg hji,
              getElem?_updNode, if_pos rfl, hnj]
            rfl
        · refine Or.inl ?_
          rw [getElem?_updNode, if_neg hji,
            getElem?_updNode, if_neg hjr]
      by_cases h2 : t2.size = 0
      · have hr2 : t2.root = none := hc2.mp h2
        have hb2l : b2 = .leaf := by
          rw [hr2, extract_none] at hb2
          exact (Option.some_inj.mp hb2).symm
        subst hb2l
        have haa : attachArena a i t1 t2 =
            updNode (updNode a r1 fun q => { q with parent := some i }) i
              fun q => { q with left := some r1 } := by
          rw [attachArena]
          simp only [h1, ht1, if_false, h2, if_true]
        rw [haa]
        have hx1 : extract (updNode (updNode a r1 fun q => { q with parent := some i }) i
            fun q => { q with left := some r1 }) fuel1 (some r1) = some b1 :=
          extract_benign hb1 (fun j hj => hbenA1 j (fun hh => hd1 (hh ▸ hj)))
        refine ⟨?_, ?_, hbenA1⟩
        · rw [hr2, hrecR n (some r1) hleaf.2]
          exact hA1i
        · rw [extract]
          simp only [hA1i, hleaf.2, extract_none]
          have hsent2 : ({ n with left := some r1 } : Node α).parent = some i ↔ False := by
            simpa using hsent
          simp only [hsent2, if_false]
          rw [extract_mono hx1 (by omega : fuel1 ≤ max fuel1 fuel2)]
      · cases ht2 : t2.root with
        | none => exact absurd (hc2.mpr ht2) h2
        | some r2 =>
          rw [ht2] at hb2 hd2
          have hir2 : i ≠ r2 := fun heq => hd2 (by rw [heq]; exact mem_reach_self hb2)
          have haa : attachArena a i t1 t2 =
              updNode (updNode
                (updNode (updNode a r1 fun q => { q with parent := some i }) i
                  fun q => { q with left := some r1 })
                r2 fun q => { q with parent := some i }) i
                fun q => { q with right := some r2 } := by
            rw [attachArena]
            simp only [h1, ht1, if_false, h2, ht2]
          have hAi : (attachArena a i t1 t2)[i]? =
              some { n with left := some r1, right := some r2 } := by
            rw [haa, getElem?_updNode, if_pos rfl, getElem?_updNode, if_neg hir2, hA1i]
            rfl
          have hben : ∀ j, j ≠ i → benign a (attachArena a i t1 t2) j := by
            intro j hji
            rw [haa]
            by_cases hjr2 : j = r2
            · subst hjr2
              cases hnj : a[j]? with
              | none =>
                refine Or.inl ?_
                rw [getElem?_updNode, if_neg hji,
                  getElem?_updNode, if_pos rfl]
                by_cases hjr1 : j = r1
                · subst hjr1
                  rw [getElem?_updNode, if_neg hji, getElem?_updNode, if_pos rfl, hnj]
                  rfl
                · rw [getElem?_updNode, if_neg hji,
                    getElem?_updNode, if_neg hjr1, hnj]
                  rfl
              | some nj =>
                refine Or.inr ⟨nj, some i, hnj, ?_, fun hh => hir2 (Option.some_inj.mp hh)⟩
                rw [getElem?_updNode, if_neg hji,
                  getElem?_updNode, if_pos rfl]
                by_cases hjr1 : j = r1
                · subst hjr1
                  rw [getElem?_updNode, if_neg hji, getElem?_updNode, if_pos rfl, hnj]
                  rfl
                · rw [getElem?_updNode, if_neg hji,
                    getElem?_updNode, if_neg hjr1, hnj]
                  rfl
            · have hrest : (updNode (updNode
                  (updNode (updNode a r1 fun q => { q with parent := some i }) i
                    fun q => { q with left := some r1 })
                  r2 fun q => { q with parent := some i }) i
                  fun q => { q with right := some r2 })[j]? =
                  (updNode (updNode a r1 fun q => { q with parent := some i }) i
                    fun q => { q with left := some r1 })[j]? := by
                rw [getElem?_updNode, if_neg hji,
                  getElem?_updNode, if_neg hjr2]
              rcases hbenA1 j hji with hb | ⟨nj, pa, hnj, hnj', hpa⟩
              · exact Or.inl (hrest.trans hb)
              · exact Or.inr ⟨nj, pa, hnj, hrest.trans hnj', hpa⟩
          have hx1 : extract (attachArena a i t1 t2) fuel1 (some r1) = some b1 :=
            extract_benign hb1 (fun j hj => hben j (fun hh => hd1 (hh ▸ hj)))
          have hx2 : extract (attachArena a i t1 t2) fuel2 (some r2) = some b2 :=
            extract_benign hb2 (fun j hj => hben j (fun hh => hd2 (hh ▸ hj)))
          refine ⟨?_, ?_, hben⟩
          · exact hAi
          · rw [extract]
            simp only [hAi]
            have hsent2 : ({ n with left := some r1, right := some r2 } : Node α).parent
                = some i ↔ False := by
              simpa using hsent
            simp only [hsent2, if_false]
            rw [extract_mono hx1 (by omega : fuel1 ≤ max fuel1 fuel2),
              extract_mono hx2 (by omega : fuel2 ≤ max fuel1 fuel2)]

/-! ### Invariant preservation, operation by operation -/

theorem sizeInv_of_invf {a : Arena α} {t : Tree} {fuel : Nat} {b : BT α}
    (h : Invf a t fuel b) : SizeInv a t :=
  ⟨h.2.2.2.2, fuel, b, h.1, h.2.2.2.1⟩

theorem two_mem_two_le_length {l : List Nat} {i q : Nat}
    (hi : i ∈ l) (hq : q ∈ l) (hne : i ≠ q) : 2 ≤ l.length := by
  match l with
  | [] => simp at hi
  | [x] =>
    simp at hi hq
    exact absurd (hi.trans hq.symm) hne
  | x :: y :: rest => simp

theorem root_some_of_mem_reach {a : Arena α} {t : Tree} {fuel j : Nat}
    (hj : j ∈ reach a fuel t.root) : t.root ≠ none := by
  intro h
  rw [h, reach_none] at hj
  exact absurd hj (List.not_mem_nil _)

theorem preserve_add_root {α : Type} {a : Arena α} {t : Tree} {fuel : Nat}
    {b : BT α} (hinv : Invf a t fuel b) (e : α) :
    SizeInv (add_root a t e).2.1 (add_root a t e).2.2 := by
  obtain ⟨hex, hcp, hnd, hsz, hiff⟩ := hinv
  cases hroot : t.root with
  | some r =>
    simp only [add_root, hroot]
    exact ⟨hiff, fuel, b, hex, hsz⟩
  | none =>
    simp only [add_root, hroot]
    refine ⟨?_, 2, .node .leaf e .leaf, ?_, ?_⟩
    · simp
    · rw [extract]
      rw [List.getElem?_concat_length]
      simp [extract_none]
    · simp [BT.size]

theorem preserve_replace {α : Type} {a : Arena α} {t : Tree} {fuel : Nat}
    {b : BT α} (hinv : Invf a t fuel b) (p : Pos) (e : α) :
    SizeInv (replace a t p e).2.1 (replace a t p e).2.2 := by
  obtain ⟨hex, hcp, hnd, hsz, hiff⟩ := hinv
  cases hvp : validate a t p with
  | error er =>
    simp only [replace, hvp]
    exact ⟨hiff, fuel, b, hex, hsz⟩
  | ok x =>
    obtain ⟨i, n⟩ := x
    simp only [replace, hvp]
    obtain ⟨hc, hi, hm, hsent⟩ := validate_ok.mp hvp
    subst hi
    by_cases hmem : p.node ∈ reach a fuel t.root
    · obtain ⟨bi, hbi0, hsubi⟩ := mem_reach_extract hex hmem
      have hbi := hbi0
      cases fuel with
      | zero => simp [extract] at hbi
      | succ f =>
        rw [extract] at hbi
        simp only [hm, hsent, if_false] at hbi
        cases hbl : extract a f n.left with
        | none => simp [hbl] at hbi
        | some bL =>
          cases hbr : extract a f n.right with
          | none => simp [hbl, hbr] at hbi
          | some bR =>
            simp only [hbl, hbr] at hbi
            have hbieq : bi = BT.node bL n.element bR := (Option.some_inj.mp hbi).symm
            have hNodi : (reach a (f+1) (some p.node)).Nodup := hnd.sublist hsubi
            have hreachi : reach a (f+1) (some p.node) =
                p.node :: (reach a f n.left ++ reach a f n.right) := by
              rw [reach]
              simp [hm, hsent]
            rw [hreachi] at hNodi
            obtain ⟨hpn1, -⟩ := List.nodup_cons.mp hNodi
            have hbenL : ∀ j, j ∈ reach a f n.left →
                benign a (updNode a p.node fun q => { q with element := e }) j := by
              intro j hj
              refine Or.inl ?_
              rw [getElem?_updNode, if_neg ?_]
              intro hh
              subst hh
              exact hpn1 (List.mem_append_left _ hj)
            have hbenR : ∀ j, j ∈ reach a f n.right →
                benign a (updNode a p.node fun q => { q with element := e }) j := by
              intro j hj
              refine Or.inl ?_
              rw [getElem?_updNode, if_neg ?_]
              intro hh
              subst hh
              exact hpn1 (List.mem_append_right _ hj)
            have hnew : extract (updNode a p.node fun q => { q with element := e })
                (f+1) (some p.node) = some (BT.node bL e bR) := by
              rw [extract, getElem?_updNode, if_pos rfl, hm]
              show (match (some { n with element := e } : Option (Node α)) with
                | none => none
                | some n =>
                  if n.parent = some p.node then none
                  else
                    match extract (updNode a p.node fun q => { q with element := e }) f n.left,
                        extract (updNode a p.node fun q => { q with element := e }) f n.right with
                    | some l, some r => some (BT.node l n.element r)
                    | _, _ => none) = some (BT.node bL e bR)
              simp only [hsent, if_false, extract_benign hbl hbenL,
                extract_benign hbr hbenR]
            have hben : ∀ j, j ∈ reach a (f+1) t.root →
                j ∉ reach a (f+1) (some p.node) →
                benign a (updNode a p.node fun q => { q with element := e }) j := by
              intro j _ hjP
              refine Or.inl ?_
              rw [getElem?_updNode, if_neg ?_]
              intro hh
              subst hh
              exact hjP (mem_reach_self hbi0)
            obtain ⟨b', hb', hsz'⟩ := extract_graft hbi0 hnew hex hnd hmem hben
            refine ⟨hiff, (f+1) + (f+1), b', hb', ?_⟩
            rw [hbieq] at hsz'
            simp only [BT.size] at hsz'
            have hbb : b'.size = b.size := by omega
            rw [hsz, hbb]
    · have hx : extract (updNode a p.node fun q => { q with element := e })
          fuel t.root = some b := by
        refine extract_benign hex (fun j hj => Or.inl ?_)
        rw [getElem?_updNode, if_neg ?_]
        intro hh
        subst hh
        exact hmem hj
      exact ⟨hiff, fuel, b, hx, hsz⟩

/-- Every reached index is inside the arena. -/
theorem mem_reach_lt_length {a : Arena α} {fuel0 j : Nat} {o : Option Nat}
    (hj : j ∈ reach a fuel0 o) : j < a.length := by
  obtain ⟨nj, hnj⟩ := mem_reach_isSome hj
  by_contra hcon
  rw [List.getElem?_eq_none (by omega)] at hnj
  exact Option.noConfusion hnj

theorem preserve_add_left {α : Type} {a : Arena α} {t : Tree} {fuel : Nat}
    {b : BT α} (hinv : Invf a t fuel b) (p : Pos) (e : α)
    (hreach : ∀ i n, validate a t p = .ok (i, n) → i ∈ reach a fuel t.root) :
    SizeInv (add_left a t p e).2.1 (add_left a t p e).2.2 := by
  obtain ⟨hex, hcp, hnd, hsz, hiff⟩ := hinv
  cases hvp : validate a t p with
  | error er =>
    simp only [add_left, hvp]
    exact ⟨hiff, fuel, b, hex, hsz⟩
  | ok x =>
    obtain ⟨i, n⟩ := x
    obtain ⟨hc, hi, hm, hsent⟩ := validate_ok.mp hvp
    subst hi
    have hmem : p.node ∈ reach a fuel t.root := hreach _ _ hvp
    cases hnl : n.left with
    | some l0 =>
      simp only [add_left, hvp, hnl]
      exact ⟨hiff, fuel, b, hex, hsz⟩
    | none =>
      simp only [add_left, hvp, hnl]
      have hlen : p.node < a.length := by
        by_contra hcon
        rw [List.getElem?_eq_none (by omega)] at hm
        exact Option.noConfusion hm
      obtain ⟨bi, hbi0, hsubi⟩ := mem_reach_extract hex hmem
      have hbi := hbi0
      cases fuel with
      | zero => simp [extract] at hbi
      | succ f =>
        rw [extract] at hbi
        simp only [hm, hsent, if_false, hnl, extract_none] at hbi
        cases hbr : extract a f n.right with
        | none => simp [hbr] at hbi
        | some bR =>
          simp only [hbr] at hbi
          have hbieq : bi = BT.node .leaf n.element bR := (Option.some_inj.mp hbi).symm
          have hNodi := hnd.sublist hsubi
          have hreachi : reach a (f+1) (some p.node) =
              p.node :: (reach a f n.left ++ reach a f n.right) := by
            rw [reach]
            simp [hm, hsent]
          rw [hreachi] at hNodi
          obtain ⟨hpn1, -⟩ := List.nodup_cons.mp hNodi
          have hlook : ∀ j, j ≠ p.node → j < a.length →
              ((updNode a p.node fun q => { q with left := some a.length }) ++
                [(⟨e, some p.node, none, none⟩ : Node α)])[j]? = a[j]? := by
            intro j hj hjl
            rw [List.getElem?_append_left (by rw [length_updNode]; omega),
              getElem?_updNode, if_neg hj]
          have hbenR : ∀ j, j ∈ reach a f n.right →
              benign a ((updNode a p.node fun q => { q with left := some a.length }) ++
                [(⟨e, some p.node, none, none⟩ : Node α)]) j := by
            intro j hj
            refine Or.inl (hlook j ?_ (mem_reach_lt_length hj))
            intro hh
            subst hh
            exact hpn1 (List.mem_append_right _ hj)
          have hnewnode : ((updNode a p.node fun q => { q with left := some a.length }) ++
              [(⟨e, some p.node, none, none⟩ : Node α)])[a.length]? =
                some ⟨e, some p.node, none, none⟩ := by
            have h := List.getElem?_concat_length
              (updNode a p.node fun q => { q with left := some a.length })
              (⟨e, some p.node, none, none⟩ : Node α)
            rwa [length_updNode] at h
          have hAi : ((updNode a p.node fun q => { q with left := some a.length }) ++
              [(⟨e, some p.node, none, none⟩ : Node α)])[p.node]? =
                some { n with left := some a.length } := by
            rw [List.getElem?_append_left (by rw [length_updNode]; omega),
              getElem?_updNode, if_pos rfl, hm]
            rfl
          have hleafnew : extract ((updNode a p.node fun q => { q with left := some a.length }) ++
              [(⟨e, some p.node, none, none⟩ : Node α)]) (f+1) (some a.length) =
                some (.node .leaf e .leaf) := by
            rw [extract, hnewnode]
            have hne : (some p.node = some a.length) ↔ False := by
              simp
              omega
            simp only [hne, if_false, extract_none]
          have hnew : extract ((updNode a p.node fun q => { q with left := some a.length }) ++
              [(⟨e, some p.node, none, none⟩ : Node α)]) (f+2) (some p.node) =
                some (.node (.node .leaf e .leaf) n.element bR) := by
            rw [extract, hAi]
            have hsent2 : (({ n with left := some a.length } : Node α).parent
                = some p.node) ↔ False := by
              simpa using hsent
            simp only [hsent2, if_false, hleafnew,
              extract_mono (extract_benign hbr hbenR) (by omega : f ≤ f + 1)]
          have hben : ∀ j, j ∈ reach a (f+1) t.root →
              j ∉ reach a (f+1) (some p.node) →
              benign a ((updNode a p.node fun q => { q with left := some a.length }) ++
                [(⟨e, some p.node, none, none⟩ : Node α)]) j := by
            intro j hjr hjP
            refine Or.inl (hlook j ?_ (mem_reach_lt_length hjr))
            intro hh
            subst hh
            exact hjP (mem_reach_self hbi0)
          obtain ⟨b', hb', hsz'⟩ := extract_graft hbi0 hnew hex hnd hmem hben
          refine ⟨?_, (f+1) + (f+2), b', hb', ?_⟩
          · have hroot : t.root ≠ none := root_some_of_mem_reach hmem
            constructor
            · intro h0
              exfalso
              have hbpos : 0 ≤ (b.size : Int) := by positivity
              simp only at h0
              omega
            · intro h0
              exact absurd h0 hroot
          · rw [hbieq] at hsz'
            simp only [BT.size] at hsz'
            have hbb : b'.size = b.size + 1 := by omega
            show t.size + 1 = (b'.size : Int)
            rw [hsz, hbb]
            push_cast
            ring

theorem preserve_add_right {α : Type} {a : Arena α} {t : Tree} {fuel : Nat}
    {b : BT α} (hinv : Invf a t fuel b) (p : Pos) (e : α)
    (hreach : ∀ i n, validate a t p = .ok (i, n) → i ∈ reach a fuel t.root) :
    SizeInv (add_right a t p e).2.1 (add_right a t p e).2.2 := by
  obtain ⟨hex, hcp, hnd, hsz, hiff⟩ := hinv
  cases hvp : validate a t p with
  | error er =>
    simp only [add_right, hvp]
    exact ⟨hiff, fuel, b, hex, hsz⟩
  | ok x =>
    obtain ⟨i, n⟩ := x
    obtain ⟨hc, hi, hm, hsent⟩ := validate_ok.mp hvp
    subst hi
    have hmem : p.node ∈ reach a fuel t.root := hreach _ _ hvp
    cases hnr : n.right with
    | some r0 =>
      simp only [add_right, hvp, hnr]
      exact ⟨hiff, fuel, b, hex, hsz⟩
    | none =>
      simp only [add_right, hvp, hnr]
      have hlen : p.node < a.length := by
        by_contra hcon
        rw [List.getElem?_eq_none (by omega)] at hm
        exact Option.noConfusion hm
      obtain ⟨bi, hbi0, hsubi⟩ := mem_reach_extract hex hmem
      have hbi := hbi0
      cases fuel with
      | zero => simp [extract] at hbi
      | succ f =>
        rw [extract] at hbi
        simp only [hm, hsent, if_false, hnr, extract_none] at hbi
        cases hbl : extract a f n.left with
        | none => simp [hbl] at hbi
        | some bL =>
          simp only [hbl] at hbi
          have hbieq : bi = BT.node bL n.element .leaf := (Option.some_inj.mp hbi).symm
          have hNodi := hnd.sublist hsubi
          have hreachi : reach a (f+1) (some p.node) =
              p.node :: (reach a f n.left ++ reach a f n.right) := by
            rw [reach]
            simp [hm, hsent]
          rw [hreachi] at hNodi
          obtain ⟨hpn1, -⟩ := List.nodup_cons.mp hNodi
          have hlook : ∀ j, j ≠ p.node → j < a.length →
              ((updNode a p.node fun q => { q with right := some a.length }) ++
                [(⟨e, some p.node, none, none⟩ : Node α)])[j]? = a[j]? := by
            intro j hj hjl
            rw [List.getElem?_append_left (by rw [length_updNode]; omega),
              getElem?_updNode, if_neg hj]
          have hbenL : ∀ j, j ∈ reach a f n.left →
              benign a ((updNode a p.node fun q => { q with right := some a.length }) ++
                [(⟨e, some p.node, none, none⟩ : Node α)]) j := by
            intro j hj
            refine Or.inl (hlook j ?_ (mem_reach_lt_length hj))
            intro hh
            subst hh
            exact hpn1 (List.mem_append_left _ hj)
          have hnewnode : ((updNode a p.node fun q => { q with right := some a.length }) ++
              [(⟨e, some p.node, none, none⟩ : Node α)])[a.length]? =
                some ⟨e, some p.node, none, none⟩ := by
            have h := List.getElem?_concat_length
              (updNode a p.node fun q => { q with right := some a.length })
              (⟨e, some p.node, none, none⟩ : Node α)
            rwa [length_updNode] at h
          have hAi : ((updNode a p.node fun q => { q with right := some a.length }) ++
              [(⟨e, some p.node, none, none⟩ : Node α)])[p.node]? =
                some { n with right := some a.length } := by
            rw [List.getElem?_append_left (by rw [length_updNode]; omega),
              getElem?_updNode, if_pos rfl, hm]
            rfl
          have hleafnew : extract ((updNode a p.node fun q => { q with right := some a.length }) ++
              [(⟨e, some p.node, none, none⟩ : Node α)]) (f+1) (some a.length) =
                some (.node .leaf e .leaf) := by
            rw [extract, hnewnode]
            have hne : (some p.node = some a.length) ↔ False := by
              simp
              omega
            simp only [hne, if_false, extract_none]
          have hnew : extract ((updNode a p.node fun q => { q with right := some a.length }) ++
              [(⟨e, some p.node, none, none⟩ : Node α)]) (f+2) (some p.node) =
                some (.node bL n.element (.node .leaf e .leaf)) := by
            rw [extract, hAi]
            have hsent2 : (({ n with right := some a.length } : Node α).parent
                = some p.node) ↔ False := by
              simpa using hsent
            simp only [hsent2, if_false, hleafnew,
              extract_mono (extract_benign hbl hbenL) (by omega : f ≤ f + 1)]
          have hben : ∀ j, j ∈ reach a (f+1) t.root →
              j ∉ reach a (f+1) (some p.node) →
              benign a ((updNode a p.node fun q => { q with right := some a.length }) ++
                [(⟨e, some p.node, none, none⟩ : Node α)]) j := by
            intro j hjr hjP
            refine Or.inl (hlook j ?_ (mem_reach_lt_length hjr))
            intro hh
            subst hh
            exact hjP (mem_reach_self hbi0)
          obtain ⟨b', hb', hsz'⟩ := extract_graft hbi0 hnew hex hnd hmem hben
          refine ⟨?_, (f+1) + (f+2), b', hb', ?_⟩
          · have hroot : t.root ≠ none := root_some_of_mem_reach hmem
            constructor
            · intro h0
              exfalso
              have hbpos : 0 ≤ (b.size : Int) := by positivity
              simp only at h0
              omega
            · intro h0
              exact absurd h0 hroot
          · rw [hbieq] at hsz'
            simp only [BT.size] at hsz'
            have hbb : b'.size = b.size + 1 := by omega
            show t.size + 1 = (b'.size : Int)
            rw [hsz, hbb]
            push_cast
            ring

theorem preserve_delete {α : Type} {a : Arena α} {t : Tree} {fuel : Nat}
    {b : BT α} (hinv : Invf a t fuel b) (p : Pos)
    (hreach : ∀ i n, validate a t p = .ok (i, n) → i ∈ reach a fuel t.root) :
    SizeInv (delete a t p).2.1 (delete a t p).2.2 := by
  obtain ⟨hex, hcp, hnd, hsz, hiff⟩ := hinv
  cases hvp : validate a t p with
  | error er =>
    simp only [delete, hvp]
    exact ⟨hiff, fuel, b, hex, hsz⟩
  | ok x =>
    obtain ⟨i, n⟩ := x
    obtain ⟨hc, hi, hm, hsent⟩ := validate_ok.mp hvp
    subst hi
    have hmem : p.node ∈ reach a fuel t.root := hreach _ _ hvp
    cases hch : (n.left.isSome && n.right.isSome) with
    | true =>
      simp only [delete, hvp]
      rw [if_pos hch]
      exact ⟨hiff, fuel, b, hex, hsz⟩
    | false =>
      rw [delete_ok_spec hvp hch]
      obtain ⟨bi, hbi0, hsubi⟩ := mem_reach_extract hex hmem
      have hNodi := hnd.sublist hsubi
      have hbi := hbi0
      cases fuel with
      | zero => simp [extract] at hbi
      | succ f =>
        rw [extract] at hbi
        simp only [hm, hsent, if_false] at hbi
        cases hbl : extract a f n.left with
        | none => simp [hbl] at hbi
        | some bL =>
          cases hbr : extract a f n.right with
          | none => simp [hbl, hbr] at hbi
          | some bR =>
            simp only [hbl, hbr] at hbi
            have hbieq : bi = .node bL n.element bR := (Option.some_inj.mp hbi).symm
            have hreachi : reach a (f+1) (some p.node) =
                p.node :: (reach a f n.left ++ reach a f n.right) := by
              rw [reach]
              simp [hm, hsent]
            have hNodi2 := hNodi
            rw [hreachi] at hNodi2
            obtain ⟨hpn1, -⟩ := List.nodup_cons.mp hNodi2
            -- the spliced-out child subtree, handled uniformly through the
            -- optional reference `n.childOf`
            obtain ⟨bsub, hbsub, hszsub, hsubsub⟩ :
                ∃ bsub, extract a f n.childOf = some bsub ∧
                  bi.size = 1 + bsub.size ∧
                  (reach a f n.childOf).Sublist
                    (reach a f n.left ++ reach a f n.right) := by
              cases hl2 : n.left with
              | some c =>
                have hr2 : n.right = none := by
                  cases hr3 : n.right with
                  | none => rfl
                  | some r0 =>
                    rw [hl2, hr3] at hch
                    simp at hch
                have hbrleaf : bR = .leaf := by
                  rw [hr2, extract_none] at hbr
                  exact (Option.some_inj.mp hbr).symm
                have hco : n.childOf = some c := by
                  unfold Node.childOf
                  simp only [hl2]
                have hbl2 := hbl
                rw [hl2] at hbl2
                refine ⟨bL, ?_, ?_, ?_⟩
                · rw [hco]
                  exact hbl2
                · rw [hbieq, hbrleaf]
                  simp [BT.size]
                · rw [hco]
                  have hre : reach a f (some c) = reach a f n.left := by
                    rw [hl2]
                  rw [hre]
                  exact List.sublist_append_left _ _
              | none =>
                have hblleaf : bL = .leaf := by
                  rw [hl2, extract_none] at hbl
                  exact (Option.some_inj.mp hbl).symm
                have hco : n.childOf = n.right := by
                  unfold Node.childOf
                  simp only [hl2]
                refine ⟨bR, ?_, ?_, ?_⟩
                · rw [hco]
                  exact hbr
                · rw [hbieq, hblleaf]
                  simp [BT.size]
                · rw [hco]
                  exact List.sublist_append_right _ _
            have hcmem : ∀ c, n.childOf = some c →
                c ∈ reach a (f+1) (some p.node) := by
              intro c hc0
              have h1 : c ∈ reach a f n.childOf := by
                rw [hc0]
                rw [hc0] at hbsub
                exact mem_reach_self hbsub
              rw [hreachi]
              exact List.mem_cons_of_mem _ (hsubsub.subset h1)
            have hcnp : ∀ c, n.childOf = some c → c ≠ p.node := by
              intro c hc0 hh
              have h1 : c ∈ reach a f n.childOf := by
                rw [hc0]
                rw [hc0] at hbsub
                exact mem_reach_self hbsub
              rw [hh] at h1
              exact hpn1 (hsubsub.subset h1)
            by_cases hroot : t.root = some p.node
            · -- the deleted node is the root: the child becomes the root
              rw [if_pos hroot]
              have hbeq : b = bi := extract_unique (hroot ▸ hex) hbi0
              have hpar : n.parent = none := by
                have hcp2 := hcp
                rw [hroot, conspar] at hcp2
                simp only [hm, Bool.and_eq_true, decide_eq_true_eq] at hcp2
                exact hcp2.1.1
              have hrel : deleteRelink a t p.node n =
                  (match n.childOf with
                   | some c => updNode a c fun q => { q with parent := n.parent }
                   | none => a) := by
                simp only [deleteRelink, if_pos hroot]
              have hben : ∀ j, j ∈ reach a f n.childOf →
                  benign a (updNode (deleteRelink a t p.node n) p.node
                    fun q => { q with parent := some p.node }) j := by
                intro j hj
                have hjne : j ≠ p.node := by
                  intro hh
                  subst hh
                  exact hpn1 (hsubsub.subset hj)
                rw [hrel]
                cases hc0 : n.childOf with
                | none =>
                  refine Or.inl ?_
                  rw [getElem?_updNode, if_neg hjne]
                | some c =>
                  by_cases hjc : j = c
                  · subst hjc
                    obtain ⟨nj, hnj⟩ : ∃ nj, a[j]? = some nj := by
                      rcases List.mem_append.mp (hsubsub.subset hj) with h9 | h9
                      · exact mem_reach_isSome h9
                      · exact mem_reach_isSome h9
                    refine Or.inr ⟨nj, n.parent, hnj, ?_, by rw [hpar]; exact fun hh => Option.noConfusion hh⟩
                    rw [getElem?_updNode, if_neg hjne, getElem?_updNode, if_pos rfl, hnj]
                    rfl
                  · refine Or.inl ?_
                    rw [getElem?_updNode, if_neg hjne, getElem?_updNode, if_neg hjc]
              have hxsub : extract (updNode (deleteRelink a t p.node n) p.node
                  fun q => { q with parent := some p.node }) f n.childOf = some bsub :=
                extract_benign hbsub hben
              refine ⟨?_, f, bsub, hxsub, ?_⟩
              · -- size-iff: 0 exactly when the child reference is null
                cases hc0 : n.childOf with
                | none =>
                  have hbsl : bsub = .leaf := by
                    rw [hc0, extract_none] at hbsub
                    exact (Option.some_inj.mp hbsub).symm
                  constructor
                  · intro _
                    rfl
                  · intro _
                    show t.size - 1 = 0
                    rw [hsz, hbeq]
                    rw [hbsl] at hszsub
                    simp [BT.size] at hszsub
                    omega
                | some c =>
                  have hpos : 0 < bsub.size := by
                    rw [hc0] at hbsub
                    exact extract_some_pos hbsub
                  constructor
                  · intro h0
                    exfalso
                    show False
                    have : t.size - 1 = 0 := h0
                    rw [hsz, hbeq] at this
                    omega
                  · intro h0
                    exact absurd h0 (fun hh => Option.noConfusion hh)
              · show t.size - 1 = (bsub.size : Int)
                rw [hsz, hbeq]
                rw [hszsub]
                push_cast
                ring
            · -- the deleted node hangs below a parent q
              rw [if_neg hroot]
              rcases conspar_locate hex hcp hmem with ⟨ho, -⟩ |
                ⟨q, nq, ni, hqm, hnq, hslot, hni, hip⟩
              · exact absurd ho hroot
              · have hnn : ni = n := Option.some_inj.mp (hni.symm.trans hm)
                rw [hnn] at hip
                have hpq : n.parent = some q := hip
                have hqi : q ≠ p.node := by
                  intro hh
                  rw [hh] at hpq
                  exact hsent hpq
                obtain ⟨bq, hbq0, hsubq⟩ := mem_reach_extract hex hqm
                have hNodq := hnd.sublist hsubq
                have hbq := hbq0
                rw [extract] at hbq
                simp only [hnq] at hbq
                by_cases hqs : nq.parent = some q
                · simp [hqs] at hbq
                · simp only [hqs, if_false] at hbq
                  cases hqL : extract a f nq.left with
                  | none => simp [hqL] at hbq
                  | some bqL =>
                    cases hqR : extract a f nq.right with
                    | none => simp [hqL, hqR] at hbq
                    | some bqR =>
                      simp only [hqL, hqR] at hbq
                      have hbqeq : bq = .node bqL nq.element bqR :=
                        (Option.some_inj.mp hbq).symm
                      have hreachq : reach a (f+1) (some q) =
                          q :: (reach a f nq.left ++ reach a f nq.right) := by
                        rw [reach]
                        simp [hnq, hqs]
                      have hNodq2 := hNodq
                      rw [hreachq] at hNodq2
                      obtain ⟨hq1, hNodq3⟩ := List.nodup_cons.mp hNodq2
                      obtain ⟨hndlq, hndrq, hdisjq⟩ := List.nodup_append.mp hNodq3
                      have hb2 : 2 ≤ b.size := by
                        have hlen2 := reach_length hex
                        have := two_mem_two_le_length hmem hqm (fun hh => hqi hh.symm)
                        omega
                      have hiff2 : ((t.size - 1 = 0) ↔ (t.root = none)) := by
                        cases hrt : t.root with
                        | none => exact absurd hrt (root_some_of_mem_reach hmem)
                        | some r =>
                          constructor
                          · intro h0
                            exfalso
                            rw [hsz] at h0
                            omega
                          · intro h0
                            exact Option.noConfusion h0
                      rcases hslot with hsl | hsr
                      · -- the deleted node hangs in q's left slot
                        have hqL' : extract a f (some p.node) = some bqL := by
                          rw [← hsl]
                          exact hqL
                        have hbqLbi : bqL = bi := extract_unique hqL' hbi0
                        have hrequ : reach a (f+1) (some p.node) =
                            reach a f (some p.node) := reach_unique hbi0 hqL'
                        have hplq : reach a f nq.left = reach a f (some p.node) := by
                          rw [hsl]
                        have hpin : p.node ∈ reach a f nq.left := by
                          rw [hplq, ← hrequ]
                          exact mem_reach_self hbi0
                        have hqout : q ∉ reach a (f+1) (some p.node) := by
                          rw [hrequ, ← hplq]
                          intro hh
                          exact hq1 (List.mem_append_left _ hh)
                        have hcin2 : ∀ c, n.childOf = some c →
                            c ∈ reach a f nq.left := by
                          intro c hc0
                          rw [hplq, ← hrequ]
                          exact hcmem c hc0
                        have hA1q : (((match n.childOf with
                            | some c => updNode a c fun q0 => { q0 with parent := some q }
                            | none => a) : Arena α))[q]? = some nq := by
                          cases hc0 : n.childOf with
                          | none => exact hnq
                          | some c =>
                            have hcq : ¬(q = c) := by
                              intro hh
                              subst hh
                              exact hq1 (List.mem_append_left _ (hcin2 _ hc0))
                            rw [getElem?_updNode, if_neg hcq]
                            exact hnq
                        have hrel : deleteRelink a t p.node n =
                            updNode (((match n.childOf with
                              | some c => updNode a c fun q0 => { q0 with parent := some q }
                              | none => a) : Arena α)) q
                              fun q0 => { q0 with left := n.childOf } := by
                          simp only [deleteRelink, if_neg hroot, hpq]
                          simp only [hA1q]
                          rw [if_pos hsl]
                        have hbenSub : ∀ j, j ∈ reach a f n.childOf →
                            benign a (updNode (deleteRelink a t p.node n) p.node
                              fun q0 => { q0 with parent := some p.node }) j := by
                          intro j hj
                          have hjne : ¬(j = p.node) := by
                            intro hh
                            subst hh
                            exact hpn1 (hsubsub.subset hj)
                          have hjq : ¬(j = q) := by
                            intro hh
                            subst hh
                            have h2 : j ∈ reach a f nq.left := by
                              rw [hplq, ← hrequ, hreachi]
                              exact List.mem_cons_of_mem _ (hsubsub.subset hj)
                            exact hq1 (List.mem_append_left _ h2)
                          rw [hrel]
                          cases hc0 : n.childOf with
                          | none =>
                            refine Or.inl ?_
                            rw [getElem?_updNode, if_neg hjne,
                              getElem?_updNode, if_neg hjq]
                          | some c =>
                            by_cases hjc : j = c
                            · subst hjc
                              obtain ⟨nj, hnj⟩ : ∃ nj, a[j]? = some nj := by
                                rcases List.mem_append.mp (hsubsub.subset hj) with h9 | h9
                                · exact mem_reach_isSome h9
                                · exact mem_reach_isSome h9
                              refine Or.inr ⟨nj, some q, hnj, ?_,
                                fun hh => hjq (Option.some_inj.mp hh).symm⟩
                              rw [getElem?_updNode, if_neg hjne,
                                getElem?_updNode, if_neg hjq,
                                getElem?_updNode, if_pos rfl, hnj]
                              rfl
                            · refine Or.inl ?_
                              rw [getElem?_updNode, if_neg hjne,
                                getElem?_updNode, if_neg hjq,
                                getElem?_updNode, if_neg hjc]
                        have hxsub : extract (updNode (deleteRelink a t p.node n) p.node
                            fun q0 => { q0 with parent := some p.node }) f n.childOf =
                              some bsub :=
                          extract_benign hbsub hbenSub
                        have hbenR : ∀ j, j ∈ reach a f nq.right →
                            benign a (updNode (deleteRelink a t p.node n) p.node
                              fun q0 => { q0 with parent := some p.node }) j := by
                          intro j hj
                          have hjl : j ∉ reach a f nq.left := fun hh => hdisjq hh hj
                          have hjne : ¬(j = p.node) := by
                            intro hh
                            subst hh
                            exact hjl hpin
                          have hjq : ¬(j = q) := by
                            intro hh
                            subst hh
                            exact hq1 (List.mem_append_right _ hj)
                          have hjc : ∀ c, n.childOf = some c → ¬(j = c) := by
                            intro c hc0 hh
                            subst hh
                            exact hjl (hcin2 j hc0)
                          rw [hrel]
                          cases hc0 : n.childOf with
                          | none =>
                            refine Or.inl ?_
                            rw [getElem?_updNode, if_neg hjne,
                              getElem?_updNode, if_neg hjq]
                          | some c =>
                            refine Or.inl ?_
                            rw [getElem?_updNode, if_neg hjne,
                              getElem?_updNode, if_neg hjq,
                              getElem?_updNode, if_neg (hjc c hc0)]
                        have hxR : extract (updNode (deleteRelink a t p.node n) p.node
                            fun q0 => { q0 with parent := some p.node }) f nq.right =
                              some bqR :=
                          extract_benign hqR hbenR
                        have hAq : (updNode (deleteRelink a t p.node n) p.node
                            fun q0 => { q0 with parent := some p.node })[q]? =
                              some { nq with left := n.childOf } := by
                          rw [getElem?_updNode, if_neg hqi, hrel,
                            getElem?_updNode, if_pos rfl, hA1q]
                          rfl
                        have hnew : extract (updNode (deleteRelink a t p.node n) p.node
                            fun q0 => { q0 with parent := some p.node }) (f+1) (some q) =
                              some (.node bsub nq.element bqR) := by
                          rw [extract, hAq]
                          have hqs2 : (({ nq with left := n.childOf } : Node α).parent
                              = some q) ↔ False := by
                            simpa using hqs
                          simp only [hqs2, if_false, hxsub, hxR]
                        have hbenOut : ∀ j, j ∈ reach a (f+1) t.root →
                            j ∉ reach a (f+1) (some q) →
                            benign a (updNode (deleteRelink a t p.node n) p.node
                              fun q0 => { q0 with parent := some p.node }) j := by
                          intro j hjr hjq2
                          have hpmem2 : p.node ∈ reach a (f+1) (some q) := by
                            rw [hreachq]
                            exact List.mem_cons_of_mem _ (List.mem_append_left _ hpin)
                          have hjne : ¬(j = p.node) := by
                            intro hh
                            subst hh
                            exact hjq2 hpmem2
                          have hjq3 : ¬(j = q) := by
                            intro hh
                            subst hh
                            exact hjq2 (mem_reach_self hbq0)
                          have hjc : ∀ c, n.childOf = some c → ¬(j = c) := by
                            intro c hc0 hh
                            subst hh
                            apply hjq2
                            rw [hreachq]
                            exact List.mem_cons_of_mem _
                              (List.mem_append_left _ (hcin2 j hc0))
                          rw [hrel]
                          cases hc0 : n.childOf with
                          | none =>
                            refine Or.inl ?_
                            rw [getElem?_updNode, if_neg hjne,
                              getElem?_updNode, if_neg hjq3]
                          | some c =>
                            refine Or.inl ?_
                            rw [getElem?_updNode, if_neg hjne,
                              getElem?_updNode, if_neg hjq3,
                              getElem?_updNode, if_neg (hjc c hc0)]
                        obtain ⟨b', hb', hsz'⟩ :=
                          extract_graft hbq0 hnew hex hnd hqm hbenOut
                        refine ⟨hiff2, (f+1) + (f+1), b', hb', ?_⟩
                        show t.size - 1 = (b'.size : Int)
                        rw [hsz]
                        rw [hbqeq, hbqLbi] at hsz'
                        simp only [BT.size] at hsz'
                        omega
                      · -- the deleted node hangs in q's right slot
                        have hqR' : extract a f (some p.node) = some bqR := by
                          rw [← hsr]
                          exact hqR
                        have hbqRbi : bqR = bi := extract_unique hqR' hbi0
                        have hrequ : reach a (f+1) (some p.node) =
                            reach a f (some p.node) := reach_unique hbi0 hqR'
                        have hplq : reach a f nq.right = reach a f (some p.node) := by
                          rw [hsr]
                        have hpin : p.node ∈ reach a f nq.right := by
                          rw [hplq, ← hrequ]
                          exact mem_reach_self hbi0
                        have hqout : q ∉ reach a (f+1) (some p.node) := by
                          rw [hrequ, ← hplq]
                          intro hh
                          exact hq1 (List.mem_append_right _ hh)
                        have hcin2 : ∀ c, n.childOf = some c →
                            c ∈ reach a f nq.right := by
                          intro c hc0
                          rw [hplq, ← hrequ]
                          exact hcmem c hc0
                        have hnotl : ¬(nq.left = some p.node) := by
                          intro hh
                          have h1 : p.node ∈ reach a f nq.left := by
                            rw [hh, ← hrequ]
                            exact mem_reach_self hbi0
                          exact hdisjq h1 hpin
                        have hA1q : (((match n.childOf with
                            | some c => updNode a c fun q0 => { q0 with parent := some q }
                            | none => a) : Arena α))[q]? = some nq := by
                          cases hc0 : n.childOf with
                          | none => exact hnq
                          | some c =>
                            have hcq : ¬(q = c) := by
                              intro hh
                              subst hh
                              exact hq1 (List.mem_append_right _ (hcin2 _ hc0))
                            rw [getElem?_updNode, if_neg hcq]
                            exact hnq
                        have hrel : deleteRelink a t p.node n =
                            updNode (((match n.childOf with
                              | some c => updNode a c fun q0 => { q0 with parent := some q }
                              | none => a) : Arena α)) q
                              fun q0 => { q0 with right := n.childOf } := by
                          simp only [deleteRelink, if_neg hroot, hpq]
                          simp only [hA1q]
                          rw [if_neg hnotl]
                        have hbenSub : ∀ j, j ∈ reach a f n.childOf →
                            benign a (updNode (deleteRelink a t p.node n) p.node
                              fun q0 => { q0 with parent := some p.node }) j := by
                          intro j hj
                          have hjne : ¬(j = p.node) := by
                            intro hh
                            subst hh
                            exact hpn1 (hsubsub.subset hj)
                          have hjq : ¬(j = q) := by
                            intro hh
                            subst hh
                            have h2 : j ∈ reach a f nq.right := by
                              rw [hplq, ← hrequ, hreachi]
                              exact List.mem_cons_of_mem _ (hsubsub.subset hj)
                            exact hq1 (List.mem_append_right _ h2)
                          rw [hrel]
                          cases hc0 : n.childOf with
                          | none =>
                            refine Or.inl ?_
                            rw [getElem?_updNode, if_neg hjne,
                              getElem?_updNode, if_neg hjq]
                          | some c =>
                            by_cases hjc : j = c
                            · subst hjc
                              obtain ⟨nj, hnj⟩ : ∃ nj, a[j]? = some nj := by
                                rcases List.mem_append.mp (hsubsub.subset hj) with h9 | h9
                                · exact mem_reach_isSome h9
                                · exact mem_reach_isSome h9
                              refine Or.inr ⟨nj, some q, hnj, ?_,
                                fun hh => hjq (Option.some_inj.mp hh).symm⟩
                              rw [getElem?_updNode, if_neg hjne,
                                getElem?_updNode, if_neg hjq,
                                getElem?_updNode, if_pos rfl, hnj]
                              rfl
                            · refine Or.inl ?_
                              rw [getElem?_updNode, if_neg hjne,
                                getElem?_updNode, if_neg hjq,
                                getElem?_updNode, if_neg hjc]
                        have hxsub : extract (updNode (deleteRelink a t p.node n) p.node
                            fun q0 => { q0 with parent := some p.node }) f n.childOf =
                              some bsub :=
                          extract_benign hbsub hbenSub
                        have hbenL : ∀ j, j ∈ reach a f nq.left →
                            benign a (updNode (deleteRelink a t p.node n) p.node
                              fun q0 => { q0 with parent := some p.node }) j := by
                          intro j hj
                          have hjr2 : j ∉ reach a f nq.right := fun hh => hdisjq hj hh
                          have hjne : ¬(j = p.node) := by
                            intro hh
                            subst hh
                            exact hjr2 hpin
                          have hjq : ¬(j = q) := by
                            intro hh
                            subst hh
                            exact hq1 (List.mem_append_left _ hj)
                          have hjc : ∀ c, n.childOf = some c → ¬(j = c) := by
                            intro c hc0 hh
                            subst hh
                            exact hjr2 (hcin2 j hc0)
                          rw [hrel]
                          cases hc0 : n.childOf with
                          | none =>
                            refine Or.inl ?_
                            rw [getElem?_updNode, if_neg hjne,
                              getElem?_updNode, if_neg hjq]
                          | some c =>
                            refine Or.inl ?_
                            rw [getElem?_updNode, if_neg hjne,
                              getElem?_updNode, if_neg hjq,
                              getElem?_updNode, if_neg (hjc c hc0)]
                        have hxL : extract (updNode (deleteRelink a t p.node n) p.node
                            fun q0 => { q0 with parent := some p.node }) f nq.left =
                              some bqL :=
                          extract_benign hqL hbenL
                        have hAq : (updNode (deleteRelink a t p.node n) p.node
                            fun q0 => { q0 with parent := some p.node })[q]? =
                              some { nq with right := n.childOf } := by
                          rw [getElem?_updNode, if_neg hqi, hrel,
                            getElem?_updNode, if_pos rfl, hA1q]
                          rfl
                        have hnew : extract (updNode (deleteRelink a t p.node n) p.node
                            fun q0 => { q0 with parent := some p.node }) (f+1) (some q) =
                              some (.node bqL nq.element bsub) := by
                          rw [extract, hAq]
                          have hqs2 : (({ nq with right := n.childOf } : Node α).parent
                              = some q) ↔ False := by
                            simpa using hqs
                          simp only [hqs2, if_false, hxsub, hxL]
                        have hbenOut : ∀ j, j ∈ reach a (f+1) t.root →
                            j ∉ reach a (f+1) (some q) →
                            benign a (updNode (deleteRelink a t p.node n) p.node
                              fun q0 => { q0 with parent := some p.node }) j := by
                          intro j hjr hjq2
                          have hpmem2 : p.node ∈ reach a (f+1) (some q) := by
                            rw [hreachq]
                            exact List.mem_cons_of_mem _ (List.mem_append_right _ hpin)
                          have hjne : ¬(j = p.node) := by
                            intro hh
                            subst hh
                            exact hjq2 hpmem2
                          have hjq3 : ¬(j = q) := by
                            intro hh
                            subst hh
                            exact hjq2 (mem_reach_self hbq0)
                          have hjc : ∀ c, n.childOf = some c → ¬(j = c) := by
                            intro c hc0 hh
                            subst hh
                            apply hjq2
                            rw [hreachq]
                            exact List.mem_cons_of_mem _
                              (List.mem_append_right _ (hcin2 j hc0))
                          rw [hrel]
                          cases hc0 : n.childOf with
                          | none =>
                            refine Or.inl ?_
                            rw [getElem?_updNode, if_neg hjne,
                              getElem?_updNode, if_neg hjq3]
                          | some c =>
                            refine Or.inl ?_
                            rw [getElem?_updNode, if_neg hjne,
                              getElem?_updNode, if_neg hjq3,
                              getElem?_updNode, if_neg (hjc c hc0)]
                        obtain ⟨b', hb', hsz'⟩ :=
                          extract_graft hbq0 hnew hex hnd hqm hbenOut
                        refine ⟨hiff2, (f+1) + (f+1), b', hb', ?_⟩
                        show t.size - 1 = (b'.size : Int)
                        rw [hsz]
                        rw [hbqeq, hbqRbi] at hsz'
                        simp only [BT.size] at hsz'
                        omega

theorem preserve_attach {α : Type} {a : Arena α} {t t1 t2 : Tree}
    {fuel fuel1 fuel2 : Nat} {b b1 b2 : BT α}
    (hinv : Invf a t fuel b) (hinv1 : Invf a t1 fuel1 b1)
    (hinv2 : Invf a t2 fuel2 b2) (p : Pos)
    (hmem : p.node ∈ reach a fuel t.root)
    (hd1 : p.node ∉ reach a fuel1 t1.root)
    (hd2 : p.node ∉ reach a fuel2 t2.root) :
    SizeInv (attach a t p (some t1) (some t2)).2.1
      (attach a t p (some t1) (some t2)).2.2.1 := by
  obtain ⟨hex, hcp, hnd, hsz, hiff⟩ := hinv
  obtain ⟨hex1, hcp1, hnd1, hsz1, hiff1⟩ := hinv1
  obtain ⟨hex2, hcp2, hnd2, hsz2, hiff2⟩ := hinv2
  cases hvp : validate a t p with
  | error er =>
    simp only [attach, hvp]
    exact ⟨hiff, fuel, b, hex, hsz⟩
  | ok x =>
    obtain ⟨i, n⟩ := x
    obtain ⟨hc, hi, hm, hsent⟩ := validate_ok.mp hvp
    subst hi
    by_cases hch : (n.left.isSome || n.right.isSome) = true
    · simp only [attach, hvp, hch, if_true]
      exact ⟨hiff, fuel, b, hex, hsz⟩
    · have hleaf : n.left = none ∧ n.right = none := by
        cases hl : n.left with
        | some l => rw [hl] at hch; simp at hch
        | none =>
          cases hr : n.right with
          | some r => rw [hl, hr] at hch; simp at hch
          | none => exact ⟨rfl, rfl⟩
      rw [attach_ok_spec hvp hleaf hiff1 hiff2]
      show SizeInv (attachArena a p.node t1 t2)
        { t with size := t.size + t1.size + t2.size }
      obtain ⟨hAi, hAex, hben⟩ :=
        attachArena_extract hm hsent hleaf hiff1 hiff2 hex1 hex2 hd1 hd2
      have hrs : t.root ≠ none := root_some_of_mem_reach hmem
      cases fuel with
      | zero =>
        have h0 : reach a 0 t.root = [] := by
          cases t.root <;> rfl
        rw [h0] at hmem
        exact absurd hmem (List.not_mem_nil _)
      | succ f =>
        obtain ⟨bi, hbi0, hsubi⟩ := mem_reach_extract hex hmem
        have hbi2 : extract a (f + 1) (some p.node) =
            some (.node .leaf n.element .leaf) := by
          rw [extract]
          have hs2 : (n.parent = some p.node) ↔ False := by
            simpa using hsent
          simp only [hm, hs2, if_false, hleaf.1, hleaf.2, extract_none]
        have hbieq : bi = .node .leaf n.element .leaf :=
          Option.some_inj.mp (hbi0.symm.trans hbi2)
        have hbenOut : ∀ j, j ∈ reach a (f + 1) t.root →
            j ∉ reach a (f + 1) (some p.node) →
            benign a (attachArena a p.node t1 t2) j := by
          intro j _ hj2
          refine hben j ?_
          intro hh
          subst hh
          exact hj2 (mem_reach_self hbi0)
        obtain ⟨b', hb', hsz'⟩ := extract_graft hbi0 hAex hex hnd hmem hbenOut
        refine ⟨?_, (f + 1) + (max fuel1 fuel2 + 1), b', hb', ?_⟩
        · show t.size + t1.size + t2.size = 0 ↔ t.root = none
          constructor
          · intro hs0
            exfalso
            have ht0 : t.size = 0 := by omega
            exact hrs (hiff.mp ht0)
          · intro h0
            exact absurd h0 hrs
        · show t.size + t1.size + t2.size = (b'.size : Int)
          rw [hbieq] at hsz'
          simp only [BT.size] at hsz'
          omega

/-! ### C5 -/

/-- C5: `attach(p, t1, t2)` at a valid leaf moves each non-empty source
tree's entire node graph under `p` — `t1`'s into the left slot, `t2`'s into
the right slot (the subtree at `p` now extracts to the node over the two
source trees), leaves a slot unset when that source is empty, grows the size
by `len(t1) + len(t2)` counted before the move, and leaves both sources
empty (root cleared, size 0).  The hypotheses are the position's validity,
`p`'s node being a leaf, the sources' documented size/root coherence, their
graphs extracting, and the attach point lying outside both source graphs. -/
theorem C5_attach_moves {α : Type} {a : Arena α} {t t1 t2 : Tree} {p : Pos}
    {i : Nat} {n : Node α} {fuel1 fuel2 : Nat} {b1 b2 : BT α}
    (hv : validate a t p = .ok (i, n))
    (hleaf : n.left = none ∧ n.right = none)
    (hc1 : t1.size = 0 ↔ t1.root = none)
    (hc2 : t2.size = 0 ↔ t2.root = none)
    (hb1 : extract a fuel1 t1.root = some b1)
    (hb2 : extract a fuel2 t2.root = some b2)
    (hd1 : i ∉ reach a fuel1 t1.root)
    (hd2 : i ∉ reach a fuel2 t2.root) :
    attach a t p (some t1) (some t2) =
      (.ok (), attachArena a i t1 t2,
       { t with size := t.size + t1.size + t2.size },
       some (if t1.size = 0 then t1 else { t1 with root := none, size := 0 }),
       some (if t2.size = 0 then t2 else { t2 with root := none, size := 0 })) ∧
    (if t1.size = 0 then t1 else { t1 with root := none, size := 0 }).size = 0 ∧
    (if t1.size = 0 then t1 else { t1 with root := none, size := 0 }).root = none ∧
    (if t2.size = 0 then t2 else { t2 with root := none, size := 0 }).size = 0 ∧
    (if t2.size = 0 then t2 else { t2 with root := none, size := 0 }).root = none ∧
    (attachArena a i t1 t2)[i]? =
      some { n with left := t1.root, right := t2.root } ∧
    extract (attachArena a i t1 t2) (max fuel1 fuel2 + 1) (some i) =
      some (.node b1 n.element b2) := by
  obtain ⟨hcid, hi, hm, hsent⟩ := validate_ok.mp hv
  subst hi
  obtain ⟨hA1, hA2, _⟩ :=
    attachArena_extract hm hsent hleaf hc1 hc2 hb1 hb2 hd1 hd2
  refine ⟨attach_ok_spec hv hleaf hc1 hc2, ?_, ?_, ?_, ?_, hA1, hA2⟩
  · by_cases h1 : t1.size = 0
    · rw [if_pos h1]; exact h1
    · simp [h1]
  · by_cases h1 : t1.size = 0
    · rw [if_pos h1]; exact hc1.mp h1
    · simp [h1]
  · by_cases h2 : t2.size = 0
    · rw [if_pos h2]; exact h2
    · simp [h2]
  · by_cases h2 : t2.size = 0
    · rw [if_pos h2]; exact hc2.mp h2
    · simp [h2]

/-- Witness for C5: over a shared heap, attach tree 1 (root X) and tree 2
(root Y) below the leaf A of tree 0; size grows 1 → 3, both sources end
empty, and the subtree at A extracts to X ← A → Y. -/
theorem C5_attach_moves_witness :
    validate cxs3.2.1 cxs1.2.2 ⟨0, 0⟩ = .ok (0, ⟨"A", none, none, none⟩) ∧
    attach cxs3.2.1 cxs1.2.2 ⟨0, 0⟩ (some cxs2.2.2) (some cxs3.2.2) =
      (.ok (), attachArena cxs3.2.1 0 cxs2.2.2 cxs3.2.2, Tree.mk 0 (some 0) 3,
       some (Tree.mk 1 none 0), some (Tree.mk 2 none 0)) ∧
    extract (attachArena cxs3.2.1 0 cxs2.2.2 cxs3.2.2) 3 (some 0) =
      some (.node (.node .leaf "X" .leaf) "A" (.node .leaf "Y" .leaf)) := by
  have hv : validate cxs3.2.1 cxs1.2.2 ⟨0, 0⟩ =
      .ok (0, ⟨"A", none, none, none⟩) := rfl
  have hb1 : extract cxs3.2.1 2 cxs2.2.2.root =
      some (.node .leaf "X" .leaf) := rfl
  have hb2 : extract cxs3.2.1 2 cxs3.2.2.root =
      some (.node .leaf "Y" .leaf) := rfl
  have h := C5_attach_moves hv ⟨rfl, rfl⟩ (by decide) (by decide) hb1 hb2
    (by decide) (by decide)
  exact ⟨hv, h.1, h.2.2.2.2.2.2⟩

/-! ### C10 -/

/-- C10: after a successful `attach`, a position `q` previously issued by
either consumed source tree — `t1` or `t2` — still passes that source's
validation (the moved nodes are never marked with the self-parent sentinel,
and each source's container identity is unchanged), and that source's query
operations still navigate arbitrary steps into the transferred subtree:
`left`/`right` return positions for the same child references as before the
move. -/
theorem C10_source_positions_navigate {α : Type} {a : Arena α}
    {t t1 t2 : Tree} {p : Pos} {i : Nat} {n : Node α}
    {fuel1 fuel2 : Nat} {b1 b2 : BT α}
    (hv : validate a t p = .ok (i, n))
    (hleaf : n.left = none ∧ n.right = none)
    (hc1 : t1.size = 0 ↔ t1.root = none)
    (hc2 : t2.size = 0 ↔ t2.root = none)
    (hb1 : extract a fuel1 t1.root = some b1)
    (hb2 : extract a fuel2 t2.root = some b2)
    (hd1 : i ∉ reach a fuel1 t1.root)
    (hd2 : i ∉ reach a fuel2 t2.root) :
    attach a t p (some t1) (some t2) =
      (.ok (), attachArena a i t1 t2,
       { t with size := t.size + t1.size + t2.size },
       some (if t1.size = 0 then t1 else { t1 with root := none, size := 0 }),
       some (if t2.size = 0 then t2 else { t2 with root := none, size := 0 })) ∧
    (if t1.size = 0 then t1 else { t1 with root := none, size := 0 }).id = t1.id ∧
    (if t2.size = 0 then t2 else { t2 with root := none, size := 0 }).id = t2.id ∧
    (∀ (q : Pos) (j : Nat) (m : Node α), validate a t1 q = .ok (j, m) →
      j ∈ reach a fuel1 t1.root →
      ∃ m', validate (attachArena a i t1 t2)
          (if t1.size = 0 then t1 else { t1 with root := none, size := 0 }) q =
            .ok (j, m') ∧
        m'.element = m.element ∧ m'.left = m.left ∧ m'.right = m.right ∧
        left (attachArena a i t1 t2)
            (if t1.size = 0 then t1 else { t1 with root := none, size := 0 }) q =
          .ok (make_position
            (if t1.size = 0 then t1 else { t1 with root := none, size := 0 }) m.left) ∧
        right (attachArena a i t1 t2)
            (if t1.size = 0 then t1 else { t1 with root := none, size := 0 }) q =
          .ok (make_position
            (if t1.size = 0 then t1 else { t1 with root := none, size := 0 }) m.right)) ∧
    (∀ (q : Pos) (j : Nat) (m : Node α), validate a t2 q = .ok (j, m) →
      j ∈ reach a fuel2 t2.root →
      ∃ m', validate (attachArena a i t1 t2)
          (if t2.size = 0 then t2 else { t2 with root := none, size := 0 }) q =
            .ok (j, m') ∧
        m'.element = m.element ∧ m'.left = m.left ∧ m'.right = m.right ∧
        left (attachArena a i t1 t2)
            (if t2.size = 0 then t2 else { t2 with root := none, size := 0 }) q =
          .ok (make_position
            (if t2.size = 0 then t2 else { t2 with root := none, size := 0 }) m.left) ∧
        right (attachArena a i t1 t2)
            (if t2.size = 0 then t2 else { t2 with root := none, size := 0 }) q =
          .ok (make_position
            (if t2.size = 0 then t2 else { t2 with root := none, size := 0 }) m.right)) := by
  obtain ⟨hcid, hi, hm, hsent⟩ := validate_ok.mp hv
  subst hi
  obtain ⟨hA1, hA2, hben⟩ :=
    attachArena_extract hm hsent hleaf hc1 hc2 hb1 hb2 hd1 hd2
  have hgen : ∀ (s : Tree) (fs : Nat), p.node ∉ reach a fs s.root →
      ∀ (q : Pos) (j : Nat) (m : Node α), validate a s q = .ok (j, m) →
        j ∈ reach a fs s.root →
        ∃ m', validate (attachArena a p.node t1 t2)
            (if s.size = 0 then s else { s with root := none, size := 0 }) q =
              .ok (j, m') ∧
          m'.element = m.element ∧ m'.left = m.left ∧ m'.right = m.right ∧
          left (attachArena a p.node t1 t2)
              (if s.size = 0 then s else { s with root := none, size := 0 }) q =
            .ok (make_position
              (if s.size = 0 then s else { s with root := none, size := 0 }) m.left) ∧
          right (attachArena a p.node t1 t2)
              (if s.size = 0 then s else { s with root := none, size := 0 }) q =
            .ok (make_position
              (if s.size = 0 then s else { s with root := none, size := 0 }) m.right) := by
    intro s fs hds q j m hq hj
    obtain ⟨hqc, hqi, hqm, hqs⟩ := validate_ok.mp hq
    subst hqi
    have hji : q.node ≠ p.node := fun hh => hds (hh ▸ hj)
    have hid : (if s.size = 0 then s else { s with root := none, size := 0 }).id
        = s.id := by
      by_cases h1 : s.size = 0 <;> simp [h1]
    obtain ⟨m', hm', he, hl2, hr2, hp2⟩ :
        ∃ m', (attachArena a p.node t1 t2)[q.node]? = some m' ∧
          m'.element = m.element ∧ m'.left = m.left ∧ m'.right = m.right ∧
          m'.parent ≠ some q.node := by
      rcases hben q.node hji with h1 | ⟨m0, pa, hm0, hm0', hpa⟩
      · exact ⟨m, by rw [h1, hqm], rfl, rfl, rfl, hqs⟩
      · rw [hqm] at hm0
        injection hm0 with hm0
        subst hm0
        exact ⟨_, hm0', rfl, rfl, rfl, by simpa using hpa⟩
    have hval : validate (attachArena a p.node t1 t2)
        (if s.size = 0 then s else { s with root := none, size := 0 }) q =
          .ok (q.node, m') := by
      rw [validate_ok]
      exact ⟨hqc.trans hid.symm, rfl, hm', hp2⟩
    refine ⟨m', hval, he, hl2, hr2, ?_, ?_⟩
    · rw [left, hval]
      simp [Except.map, hl2]
    · rw [right, hval]
      simp [Except.map, hr2]
  have hid1 : (if t1.size = 0 then t1 else { t1 with root := none, size := 0 }).id
      = t1.id := by
    by_cases h1 : t1.size = 0 <;> simp [h1]
  have hid2 : (if t2.size = 0 then t2 else { t2 with root := none, size := 0 }).id
      = t2.id := by
    by_cases h2 : t2.size = 0 <;> simp [h2]
  exact ⟨attach_ok_spec hv hleaf hc1 hc2, hid1, hid2,
    fun q j m hq hj => hgen t1 fuel1 hd1 q j m hq hj,
    fun q j m hq hj => hgen t2 fuel2 hd2 q j m hq hj⟩

/-- Witness for C10: after attaching tree 1 (root X, position `⟨1, 1⟩`) and
tree 2 (root Y, position `⟨2, 2⟩`) below A, both stale positions still
validate against their emptied source trees and those sources' queries still
navigate the moved nodes. -/
theorem C10_source_positions_navigate_witness :
    validate cxs3.2.1 cxs2.2.2 ⟨1, 1⟩ = .ok (1, ⟨"X", none, none, none⟩) ∧
    validate cxs3.2.1 cxs3.2.2 ⟨2, 2⟩ = .ok (2, ⟨"Y", none, none, none⟩) ∧
    validate (attachArena cxs3.2.1 0 cxs2.2.2 cxs3.2.2) (Tree.mk 1 none 0) ⟨1, 1⟩ =
      .ok (1, ⟨"X", some 0, none, none⟩) ∧
    left (attachArena cxs3.2.1 0 cxs2.2.2 cxs3.2.2) (Tree.mk 1 none 0) ⟨1, 1⟩ =
      .ok none ∧
    validate (attachArena cxs3.2.1 0 cxs2.2.2 cxs3.2.2) (Tree.mk 2 none 0) ⟨2, 2⟩ =
      .ok (2, ⟨"Y", some 0, none, none⟩) ∧
    right (attachArena cxs3.2.1 0 cxs2.2.2 cxs3.2.2) (Tree.mk 2 none 0) ⟨2, 2⟩ =
      .ok none := by
  have hv : validate cxs3.2.1 cxs1.2.2 ⟨0, 0⟩ =
      .ok (0, ⟨"A", none, none, none⟩) := rfl
  have hq1 : validate cxs3.2.1 cxs2.2.2 ⟨1, 1⟩ =
      .ok (1, ⟨"X", none, none, none⟩) := rfl
  have hq2 : validate cxs3.2.1 cxs3.2.2 ⟨2, 2⟩ =
      .ok (2, ⟨"Y", none, none, none⟩) := rfl
  have hb1 : extract cxs3.2.1 2 cxs2.2.2.root =
      some (.node .leaf "X" .leaf) := rfl
  have hb2 : extract cxs3.2.1 2 cxs3.2.2.root =
      some (.node .leaf "Y" .leaf) := rfl
  have h := C10_source_positions_navigate hv ⟨rfl, rfl⟩ (by decide) (by decide)
    hb1 hb2 (by decide) (by decide)
  obtain ⟨-, -, -, hnav1, hnav2⟩ := h
  obtain ⟨m1, -, -, -, -, hleft1, -⟩ :=
    hnav1 ⟨1, 1⟩ 1 ⟨"X", none, none, none⟩ hq1 (by decide)
  obtain ⟨m2, -, -, -, -, -, hright2⟩ :=
    hnav2 ⟨2, 2⟩ 2 ⟨"Y", none, none, none⟩ hq2 (by decide)
  exact ⟨hq1, hq2, rfl, hleft1, rfl, hright2⟩

/-! ### C3 -/

/-- C3: `delete` on a valid position whose node has at most one child
returns the removed element, decrements the size by 1, re-parents the
remaining child (if any) to the deleted node's former parent, and updates
the former parent's corresponding child slot — or the tree's root reference
when the deleted node was the root — to the child (or to null when there is
none).  The aliasing hypotheses (`hcp`, and the back-link disjunction
`hpar`) are the documented structural invariant of a live tree. -/
theorem C3_delete_splice {α : Type} {a : Arena α} {t : Tree} {p : Pos} {i : Nat}
    {n : Node α} (hv : validate a t p = .ok (i, n))
    (hch : n.left = none ∨ n.right = none)
    (hcp : ∀ c, n.childOf = some c → c ≠ i ∧ ∀ pi, n.parent = some pi → c ≠ pi)
    (hpar : t.root = some i ∨
      ∃ pi pn, n.parent = some pi ∧ a[pi]? = some pn ∧ pi ≠ i ∧
        (pn.left = some i ∨ pn.right = some i)) :
    ∃ a', delete a t p =
        (.ok n.element, a',
         { t with root := if t.root = some i then n.childOf else t.root,
                  size := t.size - 1 }) ∧
      (∀ c cn, n.childOf = some c → a[c]? = some cn →
        a'[c]? = some { cn with parent := n.parent }) ∧
      (∀ pi pn, t.root ≠ some i → n.parent = some pi → a[pi]? = some pn →
        (pn.left = some i → a'[pi]? = some { pn with left := n.childOf }) ∧
        (pn.left ≠ some i → a'[pi]? = some { pn with right := n.childOf })) := by
  have hch2 : (n.left.isSome && n.right.isSome) = false := by
    rcases hch with h | h <;> simp [h]
  refine ⟨updNode (deleteRelink a t i n) i fun q => { q with parent := some i },
          delete_ok_spec hv hch2, ?_, ?_⟩
  · intro c cn hc hcn
    have hci : c ≠ i := (hcp c hc).1
    rw [getElem?_updNode, if_neg hci]
    have hcpi := (hcp c hc).2
    simp only [deleteRelink, hc]
    generalize hnp : n.parent = np at hcpi ⊢
    have h1 : (updNode a c fun q => { q with parent := np })[c]? =
        some { cn with parent := np } := by
      rw [getElem?_updNode, if_pos rfl, hcn]; rfl
    by_cases hr : t.root = some i
    · simp only [hr, if_true]
      exact h1
    · simp only [hr, if_false]
      cases np with
      | none => exact h1
      | some pi =>
        have hne : c ≠ pi := hcpi pi rfl
        cases hpn2 : (updNode a c fun q => { q with parent := some pi })[pi]? with
        | none => simp only [hpn2]; exact h1
        | some pn2 =>
          simp only [hpn2]
          by_cases hl : pn2.left = some i
          · simp only [hl, if_true]
            rw [getElem?_updNode, if_neg hne]
            exact h1
          · simp only [hl, if_false]
            rw [getElem?_updNode, if_neg hne]
            exact h1
  · intro pi pn hr hp hpn
    have hpii : pi ≠ i := by
      rcases hpar with h | ⟨pi', pn', hp', hpn', hne, hslot⟩
      · exact absurd h hr
      · rw [hp] at hp'
        injection hp' with hh
        subst hh
        exact hne
    have ha1 : (((match n.childOf with
        | some c => updNode a c fun q => { q with parent := some pi }
        | none => a) : Arena α))[pi]? = some pn := by
      cases hc0 : n.childOf with
      | none => exact hpn
      | some c =>
        have hne : c ≠ pi := (hcp c hc0).2 pi hp
        show (updNode a c fun q => { q with parent := some pi })[pi]? = some pn
        rw [getElem?_updNode, if_neg (fun hh => hne hh.symm)]
        exact hpn
    constructor
    · intro hl
      rw [getElem?_updNode, if_neg hpii]
      simp only [deleteRelink, if_neg hr, hp]
      simp only [ha1, hl, if_true]
      rw [getElem?_updNode, if_pos rfl, ha1]
      rfl
    · intro hl
      rw [getElem?_updNode, if_neg hpii]
      simp only [deleteRelink, if_neg hr, hp]
      simp only [ha1, hl, if_false]
      rw [getElem?_updNode, if_pos rfl, ha1]
      rfl

/-- Witness for C3: deleting the leaf D (child of B, left slot) of the demo
tree returns `"D"`, shrinks the size from 7 to 6, and clears B's left
slot. -/
theorem C3_delete_splice_witness :
    validate exArena exTree ⟨0, 3⟩ = .ok (3, ⟨"D", some 1, none, none⟩) ∧
    delete exArena exTree ⟨0, 3⟩ =
      (.ok "D", exDelD.2.1, Tree.mk 0 (some 0) 6) ∧
    (exDelD.2.1)[1]? = some ⟨"B", some 0, none, some 4⟩ := by
  have hv : validate exArena exTree ⟨0, 3⟩ =
      .ok (3, ⟨"D", some 1, none, none⟩) := rfl
  have h := C3_delete_splice hv (Or.inl rfl)
    (by intro c h; simp [Node.childOf] at h)
    (Or.inr ⟨1, ⟨"B", some 0, some 3, some 4⟩, rfl, rfl, by decide, Or.inl rfl⟩)
  obtain ⟨a', h1, h2, h3⟩ := h
  have htie : exDelD.2.1 = a' := by
    show (delete exArena exTree ⟨0, 3⟩).2.1 = a'
    rw [h1]
  refine ⟨hv, ?_, ?_⟩
  · rw [htie]
    exact h1
  · rw [htie]
    exact (h3 1 ⟨"B", some 0, some 3, some 4⟩ (by decide) rfl rfl).1 rfl

/-! ### C9 -/

/-- C9: after a successful `delete(p)`, `p.element()` does not raise — it
still returns the element the node held when it was deleted, because
`Position.element` reads the node object with no validation and `delete`
never writes the element field. -/
theorem C9_element_after_delete {α : Type} {a : Arena α} {t : Tree} {p : Pos}
    {e : α} {a' : Arena α} {t' : Tree}
    (hdel : delete a t p = (.ok e, a', t')) :
    element a' p = some e := by
  cases hv : validate a t p with
  | error er => simp [delete, hv] at hdel
  | ok x =>
    obtain ⟨i, n⟩ := x
    by_cases hch : (n.left.isSome && n.right.isSome) = true
    · simp [delete, hv, hch] at hdel
    · rw [delete_ok_spec hv (by simpa using hch)] at hdel
      injection hdel with h1 hrest
      injection hrest with h2 h3
      injection h1 with he
      subst h2
      obtain ⟨hc, hi, hm, hs⟩ := validate_ok.mp hv
      show ((updNode (deleteRelink a t i n) i
        fun q => { q with parent := some i })[p.node]?).map Node.element = some e
      rw [@element_map_updNode α (deleteRelink a t i n) i
            (fun q => { q with parent := some i }) (fun q => rfl) p.node,
          element_map_deleteRelink, hm]
      simpa using he

/-- Witness for C9: deleting the leaf D of the demo tree returns `"D"`, and
the stale position still reads `"D"`. -/
theorem C9_element_after_delete_witness :
    delete exArena exTree ⟨0, 3⟩ = (.ok "D", exDelD.2.1, exDelD.2.2) ∧
    element exDelD.2.1 ⟨0, 3⟩ = some "D" := by
  have hdel : delete exArena exTree ⟨0, 3⟩ = (.ok "D", exDelD.2.1, exDelD.2.2) := rfl
  exact ⟨hdel, C9_element_after_delete hdel⟩

/-! ### C4 -/

/-- C4: `delete` on a valid position whose node has two children fails with
`TwoChildrenError` and returns the state unchanged — the check precedes
every mutation of the structure, so size, structure and all other positions
are untouched. -/
theorem C4_delete_two_children {α : Type} {a : Arena α} {t : Tree} {p : Pos}
    {i : Nat} {n : Node α} (hv : validate a t p = .ok (i, n))
    (hl : n.left.isSome = true) (hr : n.right.isSome = true) :
    delete a t p = (.error .twoChildren, a, t) := by
  simp [delete, hv, hl, hr]

/-- Witness for C4 at node B of the demo tree (children D and E). -/
theorem C4_delete_two_children_witness :
    validate exArena exTree ⟨0, 1⟩ = .ok (1, ⟨"B", some 0, some 3, some 4⟩) ∧
    delete exArena exTree ⟨0, 1⟩ = (.error .twoChildren, exArena, exTree) := by
  have hv : validate exArena exTree ⟨0, 1⟩ =
      .ok (1, ⟨"B", some 0, some 3, some 4⟩) := rfl
  exact ⟨hv, C4_delete_two_children hv rfl rfl⟩

/-! ### C2 -/

theorem allOpsFail_of_validate {α : Type} {a : Arena α} {t : Tree} {p : Pos}
    (h : validate a t p = .error .invalidPosition) : AllOpsFail a t p := by
  refine ⟨?_, ?_, ?_, ?_, ?_, ?_, ?_, ?_, ?_, ?_⟩ <;> intros <;>
    simp [parent, left, right, num_children, is_leaf, replace, add_left,
      add_right, delete, attach, h, Except.map]

/-- Counterexample to C2 as stated: after the successful `delete` of leaf D,
`p.element()` returns the payload and `is_root(p)` returns `False`; neither
of these two public operations fails with `InvalidPosition`, because
`Position.element` performs no validation and `is_root` only compares the
root position with `p` under `Position.__eq__`. -/
theorem C2_element_is_root_counterexample :
    exDelD.1 = .ok "D" ∧
    element exDelD.2.1 ⟨0, 3⟩ = some "D" ∧
    is_root exDelD.2.2 ⟨0, 3⟩ = false :=
  ⟨rfl, rfl, rfl⟩

/-- C2 (amended): after a successful `delete(p)`, every further operation
that validates its position (`parent`, `left`, `right`, `num_children`,
`is_leaf`, `replace`, `add_left`, `add_right`, `delete`, `attach`) fails
with `InvalidPosition`; `element` instead returns the deleted node's element
without failing, and `is_root` returns `False` without failing.  (The
no-self-loop hypothesis is part of the documented structural invariant.) -/
theorem C2_delete_invalidates_amended {α : Type} {a : Arena α} {t : Tree}
    {p : Pos} {i : Nat} {n : Node α} {e : α} {a' : Arena α} {t' : Tree}
    (hv : validate a t p = .ok (i, n))
    (hdel : delete a t p = (.ok e, a', t'))
    (hloop : n.left ≠ some i ∧ n.right ≠ some i) :
    AllOpsFail a' t' p ∧ element a' p = some e ∧ is_root t' p = false := by
  obtain ⟨hc, hi, hm, hs⟩ := validate_ok.mp hv
  subst hi
  cases hch : (n.left.isSome && n.right.isSome) with
  | true => rw [delete] at hdel; rw [hv] at hdel; simp [hch] at hdel
  | false =>
  rw [delete_ok_spec hv hch] at hdel
  injection hdel with h1 hrest
  injection hrest with h2 h3
  injection h1 with he
  subst h2; subst h3
  have hsome : ((deleteRelink a t p.node n)[p.node]?).isSome = true := by
    rw [isSome_deleteRelink, hm]; rfl
  cases hmr : (deleteRelink a t p.node n)[p.node]? with
  | none => rw [hmr] at hsome; exact absurd hsome (by simp)
  | some m =>
    have hval' : validate
        (updNode (deleteRelink a t p.node n) p.node fun q => { q with parent := some p.node })
        { t with root := if t.root = some p.node then n.childOf else t.root,
                 size := t.size - 1 } p = .error .invalidPosition := by
      unfold validate
      rw [if_pos hc]
      rw [getElem?_updNode, if_pos rfl, hmr]
      simp
    refine ⟨allOpsFail_of_validate hval', ?_, ?_⟩
    · show ((updNode (deleteRelink a t p.node n) p.node
        fun q => { q with parent := some p.node })[p.node]?).map Node.element = some e
      rw [@element_map_updNode α (deleteRelink a t p.node n) p.node
            (fun q => { q with parent := some p.node }) (fun q => rfl) p.node,
          element_map_deleteRelink, hm]
      simpa using he
    · unfold is_root
      simp only [decide_eq_false_iff_not]
      by_cases hr : t.root = some p.node
      · simp only [hr, if_true]
        unfold Node.childOf
        cases hnl : n.left with
        | some l => rw [hnl] at hloop; simpa using hloop.1
        | none => exact hloop.2
      · simp only [hr, if_false]
        exact not_false

/-- Witness for C2 (amended) at the deleted leaf D of the demo tree. -/
theorem C2_delete_invalidates_witness :
    validate exArena exTree ⟨0, 3⟩ = .ok (3, ⟨"D", some 1, none, none⟩) ∧
    delete exArena exTree ⟨0, 3⟩ = (.ok "D", exDelD.2.1, exDelD.2.2) ∧
    AllOpsFail exDelD.2.1 exDelD.2.2 ⟨0, 3⟩ ∧
    element exDelD.2.1 ⟨0, 3⟩ = some "D" ∧
    is_root exDelD.2.2 ⟨0, 3⟩ = false := by
  have hv : validate exArena exTree ⟨0, 3⟩ =
      .ok (3, ⟨"D", some 1, none, none⟩) := rfl
  have hdel : delete exArena exTree ⟨0, 3⟩ = (.ok "D", exDelD.2.1, exDelD.2.2) := rfl
  have h := C2_delete_invalidates_amended hv hdel ⟨by decide, by decide⟩
  exact ⟨hv, hdel, h.1, h.2.1, h.2.2⟩

/-! ### C6 -/

/-- C6: `attach(p, t1, t2)` on a valid position fails with `NotLeafError`
when `p`'s node has at least one child, and fails with `TypeMismatchError`
when `t1` or `t2` is not an instance of the container type (a non-instance
argument is modelled as `none`); in both failure cases the returned state —
the arena, the tree, and both arguments — is exactly the input state. -/
theorem C6_attach_errors {α : Type} {a : Arena α} {t : Tree} {p : Pos}
    {i : Nat} {n : Node α} (hv : validate a t p = .ok (i, n)) :
    ((n.left.isSome || n.right.isSome) = true →
      ∀ v1 v2, attach a t p v1 v2 = (.error .notLeaf, a, t, v1, v2)) ∧
    (n.left = none → n.right = none →
      ∀ v1 v2, v1 = none ∨ v2 = none →
        attach a t p v1 v2 = (.error .typeMismatch, a, t, v1, v2)) := by
  constructor
  · intro hch v1 v2
    simp [attach, hv, hch]
  · intro hl hr v1 v2 hor
    have hch : (n.left.isSome || n.right.isSome) = false := by simp [hl, hr]
    cases v1 with
    | none => simp [attach, hv, hch]
    | some t1 =>
      cases v2 with
      | none => simp [attach, hv, hch]
      | some t2 => rcases hor with h | h <;> exact absurd h (by simp)

/-- Witness for C6: `attach` at node B (two children) fails with `NotLeaf`,
and at the leaf D with a non-tree first argument fails with `TypeMismatch`. -/
theorem C6_attach_errors_witness :
    validate exArena exTree ⟨0, 3⟩ = .ok (3, ⟨"D", some 1, none, none⟩) ∧
    attach exArena exTree ⟨0, 3⟩ none (some (Tree.mk 5 none 0)) =
      (.error .typeMismatch, exArena, exTree, none, some (Tree.mk 5 none 0)) ∧
    validate exArena exTree ⟨0, 1⟩ = .ok (1, ⟨"B", some 0, some 3, some 4⟩) ∧
    attach exArena exTree ⟨0, 1⟩ (some (Tree.mk 5 none 0)) (some (Tree.mk 6 none 0)) =
      (.error .notLeaf, exArena, exTree, some (Tree.mk 5 none 0), some (Tree.mk 6 none 0)) := by
  have hv3 : validate exArena exTree ⟨0, 3⟩ =
      .ok (3, ⟨"D", some 1, none, none⟩) := rfl
  have hv1 : validate exArena exTree ⟨0, 1⟩ =
      .ok (1, ⟨"B", some 0, some 3, some 4⟩) := rfl
  refine ⟨hv3, ?_, hv1, ?_⟩
  · exact (C6_attach_errors hv3).2 rfl rfl none (some (Tree.mk 5 none 0)) (Or.inl rfl)
  · exact (C6_attach_errors hv1).1 rfl (some (Tree.mk 5 none 0)) (some (Tree.mk 6 none 0))

/-! ### C7 -/

/-- C7: for a valid position `p` (with node index `p.node`), `add_left`
fails with `ChildExistsError` exactly when the left slot is occupied, and
otherwise allocates exactly one new node whose parent is `p`'s node, hooks
it into the left slot, increments the size by 1 and returns a position for
the new node; `add_right` is the mirror image; neither constrains the other
slot. -/
theorem C7_add_children {α : Type} {a : Arena α} {t : Tree} {p : Pos}
    {i : Nat} {n : Node α} (hv : validate a t p = .ok (i, n)) :
    i = p.node ∧
    ((∀ x, n.left = some x →
        ∀ e, add_left a t p e = (.error .childExists, a, t)) ∧
     (n.left = none → ∀ e,
        add_left a t p e =
          (.ok ⟨t.id, a.length⟩,
           (updNode a i fun q => { q with left := some a.length }) ++
             [⟨e, some i, none, none⟩],
           { t with size := t.size + 1 }) ∧
        ((add_left a t p e).2.1)[a.length]? = some ⟨e, some i, none, none⟩ ∧
        (add_left a t p e).2.1.length = a.length + 1)) ∧
    ((∀ x, n.right = some x →
        ∀ e, add_right a t p e = (.error .childExists, a, t)) ∧
     (n.right = none → ∀ e,
        add_right a t p e =
          (.ok ⟨t.id, a.length⟩,
           (updNode a i fun q => { q with right := some a.length }) ++
             [⟨e, some i, none, none⟩],
           { t with size := t.size + 1 }) ∧
        ((add_right a t p e).2.1)[a.length]? = some ⟨e, some i, none, none⟩ ∧
        (add_right a t p e).2.1.length = a.length + 1)) := by
  refine ⟨(validate_ok.mp hv).2.1, ⟨?_, ?_⟩, ⟨?_, ?_⟩⟩
  · intro x hx e
    simp [add_left, hv, hx]
  · intro hl e
    have heq : add_left a t p e =
        (.ok ⟨t.id, a.length⟩,
         (updNode a i fun q => { q with left := some a.length }) ++
           [⟨e, some i, none, none⟩],
         { t with size := t.size + 1 }) := by
      simp [add_left, hv, hl]
    refine ⟨heq, ?_, ?_⟩
    · rw [heq]
      have h := List.getElem?_concat_length
        (updNode a i fun q => { q with left := some a.length })
        (⟨e, some i, none, none⟩ : Node α)
      rwa [length_updNode] at h
    · rw [heq]
      simp [length_updNode]
  · intro x hx e
    simp [add_right, hv, hx]
  · intro hr e
    have heq : add_right a t p e =
        (.ok ⟨t.id, a.length⟩,
         (updNode a i fun q => { q with right := some a.length }) ++
           [⟨e, some i, none, none⟩],
         { t with size := t.size + 1 }) := by
      simp [add_right, hv, hr]
    refine ⟨heq, ?_, ?_⟩
    · rw [heq]
      have h := List.getElem?_concat_length
        (updNode a i fun q => { q with right := some a.length })
        (⟨e, some i, none, none⟩ : Node α)
      rwa [length_updNode] at h
    · rw [heq]
      simp [length_updNode]

/-- Witness for C7 at the leaf G (index 6) of the demo tree: its left slot
is free even though its parent also has another filled slot elsewhere; the
occupied-slot failure is witnessed at node B. -/
theorem C7_add_children_witness :
    validate exArena exTree ⟨0, 6⟩ = .ok (6, ⟨"G", some 2, none, none⟩) ∧
    add_left exArena exTree ⟨0, 6⟩ "H" =
      (.ok ⟨0, 7⟩,
       (updNode exArena 6 fun q => { q with left := some 7 }) ++
         [⟨"H", some 6, none, none⟩],
       { exTree with size := 8 }) ∧
    validate exArena exTree ⟨0, 1⟩ = .ok (1, ⟨"B", some 0, some 3, some 4⟩) ∧
    add_left exArena exTree ⟨0, 1⟩ "H" = (.error .childExists, exArena, exTree) := by
  have hv6 : validate exArena exTree ⟨0, 6⟩ =
      .ok (6, ⟨"G", some 2, none, none⟩) := rfl
  have hv1 : validate exArena exTree ⟨0, 1⟩ =
      .ok (1, ⟨"B", some 0, some 3, some 4⟩) := rfl
  refine ⟨hv6, ?_, hv1, ?_⟩
  · exact (((C7_add_children hv6).2.1).2 rfl "H").1
  · exact ((C7_add_children hv1).2.1).1 3 rfl "H"

/-! ### C8 -/

/-- Counterexample to C8 as stated: after attaching tree 1 (root X) under
the main tree's leaf A, the emptied source tree 1 still accepts its stale
position `⟨1, 1⟩`, and `delete` through it succeeds — the returned element
is X, tree 1's size drops from 0 to -1 while its root stays null, and the
documented invariant `size == 0` iff `root == null` is violated. -/
theorem C8_invariant_counterexample :
    cxBreak.1 = .ok "X" ∧
    cxBreak.2.2.size = -1 ∧
    cxBreak.2.2.root = none ∧
    ¬(cxBreak.2.2.size = 0 ↔ cxBreak.2.2.root = none) := by
  refine ⟨rfl, rfl, rfl, fun h => ?_⟩
  have h0 : cxBreak.2.2.size = 0 := h.mpr rfl
  have h1 : cxBreak.2.2.size = -1 := rfl
  rw [h1] at h0
  exact absurd h0 (by decide)

/-- C8 (amended): each public operation preserves the invariant that the
size counter is zero exactly when the root reference is null and equals the
number of nodes reachable from the root — provided each Position argument
references a node currently reachable from its own container's root, and
`attach`'s source trees satisfy the representation invariant and do not
contain the attach point in their graphs.  Without the reachability proviso
the claim is false (`delete` through a stale source position drives a size
counter to -1 with a null root). -/
theorem C8_invariant_preservation_amended {α : Type} {a : Arena α} {t : Tree}
    {fuel : Nat} {b : BT α} (hinv : Invf a t fuel b) :
    (∀ e, SizeInv (add_root a t e).2.1 (add_root a t e).2.2) ∧
    (∀ p e, SizeInv (replace a t p e).2.1 (replace a t p e).2.2) ∧
    (∀ p e, p.node ∈ reach a fuel t.root →
      SizeInv (add_left a t p e).2.1 (add_left a t p e).2.2) ∧
    (∀ p e, p.node ∈ reach a fuel t.root →
      SizeInv (add_right a t p e).2.1 (add_right a t p e).2.2) ∧
    (∀ p, p.node ∈ reach a fuel t.root →
      SizeInv (delete a t p).2.1 (delete a t p).2.2) ∧
    (∀ p t1 t2 fuel1 fuel2 b1 b2, Invf a t1 fuel1 b1 → Invf a t2 fuel2 b2 →
      p.node ∈ reach a fuel t.root →
      p.node ∉ reach a fuel1 t1.root → p.node ∉ reach a fuel2 t2.root →
      SizeInv (attach a t p (some t1) (some t2)).2.1
        (attach a t p (some t1) (some t2)).2.2.1) := by
  have hconv : ∀ (p : Pos), p.node ∈ reach a fuel t.root →
      ∀ (i : Nat) (n : Node α), validate a t p = .ok (i, n) →
        i ∈ reach a fuel t.root := by
    intro p hmem i n h
    obtain ⟨-, hi, -, -⟩ := validate_ok.mp h
    rw [hi]
    exact hmem
  exact ⟨fun e => preserve_add_root hinv e,
    fun p e => preserve_replace hinv p e,
    fun p e hmem => preserve_add_left hinv p e (hconv p hmem),
    fun p e hmem => preserve_add_right hinv p e (hconv p hmem),
    fun p hmem => preserve_delete hinv p (hconv p hmem),
    fun p t1 t2 fuel1 fuel2 b1 b2 h1 h2 hmem hd1 hd2 =>
      preserve_attach hinv h1 h2 p hmem hd1 hd2⟩

/-- Witness for C8 (amended) on the demo tree: the representation invariant
holds at fuel 4, and deleting the reachable leaf D (index 3) preserves the
size/root invariant. -/
theorem C8_invariant_preservation_witness :
    Invf exArena exTree 4 exBT ∧
    SizeInv (delete exArena exTree ⟨0, 3⟩).2.1
      (delete exArena exTree ⟨0, 3⟩).2.2 := by
  have hinv : Invf exArena exTree 4 exBT :=
    ⟨by decide, by decide, by decide, by decide, by decide⟩
  exact ⟨hinv,
    (C8_invariant_preservation_amended hinv).2.2.2.2.1 ⟨0, 3⟩ (by decide)⟩

end PBT
